import Mathlib

/-!
# rpi/monitor: image preparation pipeline and refresh loop

A shallow embedding of `rpi/monitor/src/main.go`: `resize`, `convert`, `drawInfo`, `loop`
and the `for` loop of `mainImpl`.

Conventions of the embedding.

* Go `int` is 32 or 64 bits wide, by platform (`IntSize`). The sampling arithmetic of
  `resize`, a product of a coordinate and an extent plus a half extent, wraps around
  modulo `2^bits` (`wrap`). Sums and differences of rectangle coordinates are taken in
  `Int`. The Go `/` truncates toward zero and panics on a zero divisor: it is `goDiv`,
  which returns `none` for the panic; its divisors here are 2 and sizes that are not
  negative, so a quotient never leaves the range of its dividend.
* `image.NewNRGBA` panics on a negative extent and when the byte length `4*W*H` overflows
  (`mul3NonNeg`), and its `make` fails when the byte length is more than the run time
  grants (`Platform.maxAlloc`: the hard limit of `makeslice`, or the memory there is).
* A Go panic anywhere in a function makes the whole function return `none`.
* The library types the program uses (`image.Point`, `image.Rectangle`, `color.Color`,
  `image.NRGBA`, `image1bit.VerticalLSB`, `draw.Draw`, `ssd1306.Dev`) are modelled by their
  observable behaviour: an image is its bounds together with its pixel at every coordinate,
  `Set` outside the bounds is ignored and `At` outside the bounds yields the zero value
  of the colour type of the image.
* A `for i := lo; i < hi; i++` loop is a fold of its body over `lo, lo+1, ..., hi-1`.
-/

namespace Monitor

/-! ## Machine integers -/

/-- The width of Go `int`, which the platform fixes: 32 or 64 bits. -/
inductive IntSize where
  | bits32
  | bits64
deriving DecidableEq, Repr

/-- The number of bits of `int`. -/
def IntSize.bits : IntSize → Nat
  | .bits32 => 32
  | .bits64 => 64

/-- The largest `int`. -/
def maxInt (sz : IntSize) : Int := 2 ^ (sz.bits - 1) - 1

/-- The wrap-around of an `int` result, modulo `2^bits`, into `[-2^(bits-1), 2^(bits-1))`. -/
def wrap (sz : IntSize) (z : Int) : Int :=
  (z + 2 ^ (sz.bits - 1)) % 2 ^ sz.bits - 2 ^ (sz.bits - 1)

/-- The platform the program runs on: the width of `int`, and the largest number of bytes
one `make` is granted (the hard limit of `makeslice`, or the memory there is). A length is
an `int`, so no more than `maxInt` bytes are granted; and the platform can hold one frame
of the largest panel (`4 * 128 * 64` bytes). -/
structure Platform where
  intSize : IntSize
  maxAlloc : Int
  alloc_le : maxAlloc ≤ maxInt intSize
  frame_le : 32768 ≤ maxAlloc

/-- A 32-bit platform (linux/arm) granting any length an `int` can hold. -/
def linuxArm : Platform := ⟨IntSize.bits32, 2 ^ 31 - 1, by decide, by decide⟩

/-- A 64-bit platform (linux/arm64), where `makeslice` refuses more than `2^48` bytes. -/
def linuxArm64 : Platform := ⟨IntSize.bits64, 2 ^ 48, by decide, by decide⟩

/-! ## Geometry (`image.Point`, `image.Rectangle`) -/

/-- Go `image.Point`. -/
structure Point where
  X : Int
  Y : Int
deriving DecidableEq, Repr

/-- Go `Point.Add`. -/
def Point.Add (p q : Point) : Point := ⟨p.X + q.X, p.Y + q.Y⟩

/-- Go `Point.Sub`. -/
def Point.Sub (p q : Point) : Point := ⟨p.X - q.X, p.Y - q.Y⟩

/-- Go `image.Rectangle`: the points with `Min.X <= x < Max.X` and `Min.Y <= y < Max.Y`. -/
structure Rectangle where
  Min : Point
  Max : Point
deriving DecidableEq, Repr

/-- Go `Rectangle.Dx`. -/
def Rectangle.Dx (r : Rectangle) : Int := r.Max.X - r.Min.X

/-- Go `Rectangle.Dy`. -/
def Rectangle.Dy (r : Rectangle) : Int := r.Max.Y - r.Min.Y

/-- Go `Rectangle.Size`. -/
def Rectangle.Size (r : Rectangle) : Point := ⟨r.Max.X - r.Min.X, r.Max.Y - r.Min.Y⟩

/-- Go `Rectangle.Add`: translation by `p`. -/
def Rectangle.Add (r : Rectangle) (p : Point) : Rectangle :=
  ⟨⟨r.Min.X + p.X, r.Min.Y + p.Y⟩, ⟨r.Max.X + p.X, r.Max.Y + p.Y⟩⟩

/-- Go `Rectangle.Empty`. -/
def Rectangle.Empty (r : Rectangle) : Bool :=
  decide (r.Min.X ≥ r.Max.X) || decide (r.Min.Y ≥ r.Max.Y)

/-- Go `Rectangle.Intersect`: clamp each side, and return the zero rectangle when the
result is empty. -/
def Rectangle.Intersect (r s : Rectangle) : Rectangle :=
  let minX := if r.Min.X < s.Min.X then s.Min.X else r.Min.X
  let minY := if r.Min.Y < s.Min.Y then s.Min.Y else r.Min.Y
  let maxX := if r.Max.X > s.Max.X then s.Max.X else r.Max.X
  let maxY := if r.Max.Y > s.Max.Y then s.Max.Y else r.Max.Y
  let t : Rectangle := ⟨⟨minX, minY⟩, ⟨maxX, maxY⟩⟩
  if t.Empty then ⟨⟨0, 0⟩, ⟨0, 0⟩⟩ else t

/-- Go `Point.In`. -/
def Point.In (p : Point) (r : Rectangle) : Bool :=
  decide (r.Min.X ≤ p.X) && decide (p.X < r.Max.X) &&
    decide (r.Min.Y ≤ p.Y) && decide (p.Y < r.Max.Y)

/-! ## Colours (`image/color`, `image1bit.Bit`) -/

/-- Go `color.NRGBA`: non-premultiplied 8-bit channels. -/
structure NRGBAColor where
  R : Nat
  G : Nat
  B : Nat
  A : Nat
deriving DecidableEq, Repr

/-- The dynamic types a `color.Color` value takes here: `image1bit.Bit`, `color.NRGBA`, and
any other implementation, given by what its `RGBA()` method returns. -/
inductive Color where
  | Bit (b : Bool)
  | NRGBA (c : NRGBAColor)
  | Other (r g b a : Nat)
deriving DecidableEq, Repr

/-- `image1bit.On`. -/
def On : Color := Color.Bit true

/-- `image1bit.Off`. -/
def Off : Color := Color.Bit false

/-- Go `Color.RGBA()`: alpha-premultiplied 16-bit channels held in `uint32`.
`Bit.RGBA` is all white or opaque black; `NRGBA.RGBA` is
`r |= r << 8; r *= a; r /= 0xff`. -/
def Color.RGBA : Color → Nat × Nat × Nat × Nat
  | .Bit true => (65535, 65535, 65535, 65535)
  | .Bit false => (0, 0, 0, 65535)
  | .NRGBA c =>
      ((c.R ||| (c.R <<< 8)) * c.A % 2 ^ 32 / 0xff,
       (c.G ||| (c.G <<< 8)) * c.A % 2 ^ 32 / 0xff,
       (c.B ||| (c.B <<< 8)) * c.A % 2 ^ 32 / 0xff,
       c.A ||| (c.A <<< 8))
  | .Other r g b a => (r % 2 ^ 32, g % 2 ^ 32, b % 2 ^ 32, a % 2 ^ 32)

/-- Go `color.NRGBAModel.Convert`, the conversion `(*image.NRGBA).Set` applies. -/
def NRGBAModel (c : Color) : NRGBAColor :=
  match c with
  | .NRGBA n => n
  | _ =>
    let (r, g, b, a) := c.RGBA
    if a = 0xffff then ⟨(r >>> 8) % 256, (g >>> 8) % 256, (b >>> 8) % 256, 0xff⟩
    else if a = 0 then ⟨0, 0, 0, 0⟩
    else
      ⟨(((r * 0xffff) % 2 ^ 32 / a) >>> 8) % 256,
       (((g * 0xffff) % 2 ^ 32 / a) >>> 8) % 256,
       (((b * 0xffff) % 2 ^ 32 / a) >>> 8) % 256,
       (a >>> 8) % 256⟩

/-- The `convertBit` of image1bit, the conversion `(*VerticalLSB).Set` applies: a `Bit` is
kept, any other colour is on when `(r | g | b) >= 0x8000`. -/
def convertBit (c : Color) : Bool :=
  match c with
  | .Bit b => b
  | _ =>
    let (r, g, b, _) := c.RGBA
    decide ((r ||| g ||| b) ≥ 0x8000)

/-- A background pixel: black or transparent, that is, no colour channel is set. -/
def Color.isOff (c : Color) : Bool :=
  let (r, g, b, _) := c.RGBA
  decide (r = 0) && decide (g = 0) && decide (b = 0)

/-- The zero value of a colour type, which `At` returns outside the bounds of an image. -/
def Color.isZero : Color → Bool
  | .Bit b => !b
  | .NRGBA c => decide (c = ⟨0, 0, 0, 0⟩)
  | .Other r g b a => decide (r = 0) && decide (g = 0) && decide (b = 0) && decide (a = 0)

/-! ## Images (`image.Image`, `image.NRGBA`, `image1bit.VerticalLSB`) -/

/-- Go `image.Image`: the interface `resize` and `draw.Draw` read a source through. -/
structure Image where
  Bounds : Rectangle
  At : Int → Int → Color

/-- Go `*image.NRGBA`. -/
structure NRGBA where
  Rect : Rectangle
  Pix : Int → Int → NRGBAColor

/-- The `mul3NonNeg` of Go `image`: the product `x*y*z`, or `-1` when an argument is
negative or the product overflows: the 64-bit product `x*y` has a high word, or the 64-bit
product `(x*y)*z` has one, or the result does not fit `int`. -/
def mul3NonNeg (sz : IntSize) (x y z : Int) : Int :=
  if x < 0 ∨ y < 0 ∨ z < 0 then -1
  else if 2 ^ 64 ≤ x * y then -1
  else if 2 ^ 64 ≤ x * y * z then -1
  else if maxInt sz < x * y * z then -1
  else x * y * z

/-- Go `image.NewNRGBA`: panics when `pixelBufferLength(4, r)` is negative ("huge or
negative dimensions"); `make` then fails when the length is more than the run time
grants; else an all-zero image. -/
def NewNRGBA (p : Platform) (r : Rectangle) : Option NRGBA :=
  if mul3NonNeg p.intSize 4 r.Dx r.Dy < 0 then none
  else if p.maxAlloc < mul3NonNeg p.intSize 4 r.Dx r.Dy then none
  else some ⟨r, fun _ _ => ⟨0, 0, 0, 0⟩⟩

/-- Go `(*NRGBA).At`. -/
def NRGBA.At (p : NRGBA) (x y : Int) : Color :=
  if (Point.mk x y).In p.Rect then Color.NRGBA (p.Pix x y) else Color.NRGBA ⟨0, 0, 0, 0⟩

/-- Go `(*NRGBA).Set`. -/
def NRGBA.Set (p : NRGBA) (x y : Int) (c : Color) : NRGBA :=
  if (Point.mk x y).In p.Rect then
    { p with Pix := fun x' y' => if x' = x ∧ y' = y then NRGBAModel c else p.Pix x' y' }
  else p

/-- An `*image.NRGBA` seen through the `image.Image` interface. -/
def NRGBA.toImage (p : NRGBA) : Image := ⟨p.Rect, p.At⟩

/-- The `*image1bit.VerticalLSB` frame: one bit per pixel. -/
structure VerticalLSB where
  Rect : Rectangle
  Pix : Int → Int → Bool

/-- The truncating division of Go; `none` is the run-time panic on a zero divisor. The
quotient wraps only for the least `int` divided by -1, and no divisor here is negative. -/
def goDiv (a b : Int) : Option Int :=
  if b = 0 then none else some (a.tdiv b)

/-- The `image1bit.NewVerticalLSB` constructor: `make([]byte, w*bands)` with the rows
rounded to bands of 8 (`minY := r.Min.Y &^ 7`, `maxY := (r.Max.Y + 7) &^ 7`), all bits off;
`make` panics on a negative length. -/
def NewVerticalLSB (r : Rectangle) : Option VerticalLSB :=
  let w := r.Dx
  let minY := r.Min.Y - r.Min.Y % 8
  let maxY := (r.Max.Y + 7) - (r.Max.Y + 7) % 8
  let bands := (maxY - minY).tdiv 8
  if w * bands < 0 then none else some ⟨r, fun _ _ => false⟩

/-- The `BitAt` method of `VerticalLSB`. -/
def VerticalLSB.BitAt (i : VerticalLSB) (x y : Int) : Bool :=
  if (Point.mk x y).In i.Rect then i.Pix x y else false

/-- The `At` method of `VerticalLSB`. -/
def VerticalLSB.At (i : VerticalLSB) (x y : Int) : Color := Color.Bit (i.BitAt x y)

/-- The `Set` method of `VerticalLSB`. -/
def VerticalLSB.Set (i : VerticalLSB) (x y : Int) (c : Color) : VerticalLSB :=
  if (Point.mk x y).In i.Rect then
    { i with Pix := fun x' y' => if x' = x ∧ y' = y then convertBit c else i.Pix x' y' }
  else i

/-- A `*VerticalLSB` seen through the `image.Image` interface. -/
def VerticalLSB.toImage (i : VerticalLSB) : Image := ⟨i.Rect, i.At⟩

/-! ## Loops -/

/-- A loop `for i := lo; i < hi; i++` over a state. -/
def forRange {σ : Type} (lo hi : Int) (body : Int → σ → σ) (s : σ) : σ :=
  (List.range (hi - lo).toNat).foldl (fun st (i : Nat) => body (lo + (i : Int)) st) s

/-- A loop `for i := lo; i < hi; i++` whose body may panic. -/
def forRangeM {σ : Type} (lo hi : Int) (body : Int → σ → Option σ) (s : σ) : Option σ :=
  (List.range (hi - lo).toNat).foldlM (fun st (i : Nat) => body (lo + (i : Int)) st) s

/-! ## `resize` (main.go, lines 75-86) -/

/-- The source coordinate `(i*srcMax + size/2) / size` that `resize` reads for the
destination coordinate `i` along one axis; the product and the sum wrap around. -/
def sample (sz : IntSize) (i srcMax size : Int) : Option Int := do
  let half ← goDiv size 2
  goDiv (wrap sz (wrap sz (i * srcMax) + half)) size

/-- The function `resize`, returning with the image the number of `dst.Set` calls made. -/
def resizeTraced (p : Platform) (src : Image) (size : Point) : Option (NRGBA × Nat) := do
  let srcMax := src.Bounds.Max
  let dst ← NewNRGBA p ⟨⟨0, 0⟩, size⟩
  forRangeM 0 size.Y (fun y st => do
    let sY ← sample p.intSize y srcMax.Y size.Y
    forRangeM 0 size.X (fun x st => do
      let sX ← sample p.intSize x srcMax.X size.X
      pure (st.1.Set x y (src.At sX sY), st.2 + 1)) st) (dst, 0)

/-- The function `resize`. -/
def resize (p : Platform) (src : Image) (size : Point) : Option NRGBA :=
  (resizeTraced p src size).map Prod.fst

/-- The value of `(i*srcMax + size/2) / size` as the machine computes it, for a divisor
that is not zero. -/
def sampled (sz : IntSize) (i srcMax size : Int) : Int :=
  (wrap sz (wrap sz (i * srcMax) + size.tdiv 2)).tdiv size

/-! ## `convert` (main.go, lines 88-97) -/

/-- The `clip` of Go `image/draw` (no mask). -/
def clip (dstB : Rectangle) (r : Rectangle) (srcB : Rectangle) (sp : Point) :
    Rectangle × Point :=
  let orig := r.Min
  let r := r.Intersect dstB
  let r := r.Intersect (srcB.Add (orig.Sub sp))
  let dx := r.Min.X - orig.X
  let dy := r.Min.Y - orig.Y
  if dx = 0 ∧ dy = 0 then (r, sp) else (r, ⟨sp.X + dx, sp.Y + dy⟩)

/-- Go `draw.Draw(dst, r, src, sp, draw.Src)` for a `VerticalLSB` destination: clip, then
the general path `dst.Set(x, y, src.At(sx, sy))` over the clipped rectangle. -/
def Draw (dst : VerticalLSB) (r : Rectangle) (src : Image) (sp : Point) : VerticalLSB :=
  let c := clip dst.Rect r src.Bounds sp
  let r := c.1
  let sp := c.2
  if r.Empty then dst
  else
    forRange r.Min.Y r.Max.Y (fun y d =>
      forRange r.Min.X r.Max.X (fun x d =>
        d.Set x y (src.At (sp.X + (x - r.Min.X)) (sp.Y + (y - r.Min.Y)))) d) dst

/-- The packing step of `convert` (lines 92-96): the all-off canvas, the centring offset
and the `draw.Draw` of the resized source. -/
def packStep (screenBounds : Rectangle) (size : Point) (src : Image) : Option VerticalLSB := do
  let img ← NewVerticalLSB screenBounds
  let r := src.Bounds
  let ox ← goDiv (size.X - r.Max.X) 2
  let oy ← goDiv (size.Y - r.Max.Y) 2
  let r := r.Add ⟨ox, oy⟩
  pure (Draw img r src ⟨0, 0⟩)

/-- The function `convert`; `dispBounds` is `disp.Bounds()`. -/
def convert (p : Platform) (dispBounds : Rectangle) (src : Image) :
    Option VerticalLSB := do
  let screenBounds := dispBounds
  let size := screenBounds.Size
  let src ← resize p src size
  packStep screenBounds size src.toImage

/-! ## `drawInfo` (main.go, lines 99-109) -/

/-- Go `utf8.RuneCountInString` on a text given as its sequence of code points. -/
def RuneCountInString (text : String) : Int := (text.length : Int)

/-- The function `drawInfo`. The frame type `I` stands for `draw.Image`, of which only
`Bounds` is used; `drawText` is the text rasteriser it calls. -/
def drawInfo {I : Type} (Bounds : I → Rectangle) (drawText : I → Point → String → I)
    (img : I) (text : String) : I :=
  let advance := RuneCountInString text * 7
  let bounds := Bounds img
  let advance := if advance > bounds.Dx then 0 else bounds.Dx - advance
  drawText img ⟨advance, bounds.Dy - 1 - 13⟩ text

/-! ## `loop` and the `for` loop of `mainImpl` (main.go, lines 111-122 and 153-160) -/

/-- A Go `error` value. -/
abbrev Error := String

/-- The global `info`. -/
structure Info where
  hostname : String
  ipv4 : String
deriving DecidableEq, Repr

/-- What the outside world answers: the result of the `k`-th hostname lookup and of the
`k`-th `GetInternalIP` (each the empty string on failure), and the outcome of the `k`-th
`Draw` on the display (`none` for a nil error). -/
structure Env where
  getHostname : Nat → String
  GetInternalIP : Nat → String → String
  drawResult : Nat → Option Error

/-- The program state: the display geometry (`dev.Bounds()` is `(0,0)-(W,H)`; the device
constructor `ssd1306.NewI2C` refuses a width above 128 and a height above 64), the global
`info`, the number of ticks begun, and the frames given to `dev.Draw` so far. -/
structure State where
  W : Nat
  H : Nat
  hW : W ≤ 128
  hH : H ≤ 64
  info : Info
  ticks : Nat
  drawn : List VerticalLSB

/-- The `Bounds` method of `ssd1306.Dev`. -/
def State.Bounds (s : State) : Rectangle := ⟨⟨0, 0⟩, ⟨(s.W : Int), (s.H : Int)⟩⟩

/-- The function `loop`: one tick. `none` is a panic; otherwise the new state and the
returned error (`none` for nil). -/
def loop (p : Platform) (env : Env) (inet : String) (s : State) :
    Option (State × Option Error) := do
  let src ← NewVerticalLSB s.Bounds
  let img ← convert p s.Bounds src.toImage
  let info : Info := ⟨env.getHostname s.ticks, env.GetInternalIP s.ticks inet⟩
  let err := env.drawResult s.drawn.length
  let s' : State := { s with info := info, ticks := s.ticks + 1, drawn := s.drawn ++ [img] }
  match err with
  | some e => pure (s', some e)
  | none => pure (s', none)

/-- How far `mainImpl` has come. -/
inductive Run where
  | returned (s : State) (err : Error)
  | running (s : State)
  | panicked

/-- The function `mainImpl` from the point where the display is open (lines 153-160): its
`for` loop, observed for at most `n` ticks. It returns the first error `loop` returns, and
otherwise sleeps and goes round again; `Run.running` says that after `n` ticks it has not
returned. -/
def mainImpl (p : Platform) (env : Env) (inet : String) : Nat → State → Run
  | 0, s => Run.running s
  | n + 1, s =>
    match loop p env inet s with
    | none => Run.panicked
    | some (s', some err) => Run.returned s' err
    | some (s', none) => mainImpl p env inet n s'

/-! ## Test data -/

/-- The 2x2 checkerboard `(0,0)=on, (1,0)=off, (0,1)=off, (1,1)=on`. -/
def checker : Image :=
  ⟨⟨⟨0, 0⟩, ⟨2, 2⟩⟩, fun x y =>
    if (Point.mk x y).In ⟨⟨0, 0⟩, ⟨2, 2⟩⟩ then Color.Bit (decide (x = y)) else Off⟩

/-- The on/off values of the pixels `(0,y) .. (3,y)` of an NRGBA image. -/
def row4 (d : NRGBA) (y : Int) : List Bool :=
  [convertBit (d.At 0 y), convertBit (d.At 1 y), convertBit (d.At 2 y), convertBit (d.At 3 y)]

/-- A source 2^62 pixels wide and one high, computed on demand: opaque white inside its
bounds, the zero colour outside. -/
def wideWhite : Image :=
  ⟨⟨⟨0, 0⟩, ⟨2 ^ 62, 1⟩⟩, fun x y =>
    if (Point.mk x y).In ⟨⟨0, 0⟩, ⟨2 ^ 62, 1⟩⟩ then Color.NRGBA ⟨255, 255, 255, 255⟩
    else Color.NRGBA ⟨0, 0, 0, 0⟩⟩

/-- A 1x1 source whose pixel is the half-transparent `color.RGBA64` value
`(0x7fff, 0, 0, 0x8000)`; the zero colour outside. -/
def translucent : Image :=
  ⟨⟨⟨0, 0⟩, ⟨1, 1⟩⟩, fun x y =>
    if (Point.mk x y).In ⟨⟨0, 0⟩, ⟨1, 1⟩⟩ then Color.Other 0x7fff 0 0 0x8000
    else Color.Other 0 0 0 0⟩

/-- A 1x1 black `image.YCbCr` source. Its pixel `YCbCr(0,128,128)` has the `RGBA()` value
`(0, 0, 0, 0xffff)`; outside its bounds it reads as the zero value `YCbCr(0,0,0)`, whose
`RGBA()` value is `(0, 0x8776, 0, 0xffff)`. -/
def blackYCbCr : Image :=
  ⟨⟨⟨0, 0⟩, ⟨1, 1⟩⟩, fun x y =>
    if (Point.mk x y).In ⟨⟨0, 0⟩, ⟨1, 1⟩⟩ then Color.Other 0 0 0 0xffff
    else Color.Other 0 0x8776 0 0xffff⟩

/-- The on/off values of the four pixels of a 2x2 frame, row by row. -/
def bits2x2 (i : VerticalLSB) : List Bool :=
  [i.BitAt 0 0, i.BitAt 1 0, i.BitAt 0 1, i.BitAt 1 1]

/-- A 2x2 source with every pixel on. -/
def allOn2 : Image :=
  ⟨⟨⟨0, 0⟩, ⟨2, 2⟩⟩, fun x y => if (Point.mk x y).In ⟨⟨0, 0⟩, ⟨2, 2⟩⟩ then On else Off⟩

/-- A 64x64 frame with every pixel off. -/
def blank64 : Image := (VerticalLSB.mk ⟨⟨0, 0⟩, ⟨64, 64⟩⟩ (fun _ _ => false)).toImage

/-- A world in which both lookups fail (empty strings) and the third `Draw` fails. -/
def failingEnv : Env :=
  ⟨fun _ => "", fun _ _ => "", fun k => if k = 2 then some "i/o error" else none⟩

/-- A 128x32 panel before the first tick. -/
def panel : State := ⟨128, 32, by decide, by decide, ⟨"", ""⟩, 0, []⟩

/-! ## Basic facts -/

theorem In_iff (x y : Int) (r : Rectangle) :
    (Point.mk x y).In r = true ↔ r.Min.X ≤ x ∧ x < r.Max.X ∧ r.Min.Y ≤ y ∧ y < r.Max.Y := by
  simp [Point.In, and_assoc]

theorem In_Intersect (x y : Int) (r s : Rectangle) :
    (Point.mk x y).In (r.Intersect s) = true ↔
      (Point.mk x y).In r = true ∧ (Point.mk x y).In s = true := by
  simp only [Rectangle.Intersect, Rectangle.Empty]
  split_ifs <;> simp_all [In_iff] <;> omega

/-- Outside its bounds an `*image.NRGBA` reads as the zero colour. -/
theorem NRGBA_At_outside (p : NRGBA) (x y : Int) (h : (Point.mk x y).In p.Rect = false) :
    (p.toImage.At x y).isZero = true := by
  simp [NRGBA.toImage, NRGBA.At, h, Color.isZero]

/-- Outside its bounds a `*VerticalLSB` reads as `Off`, the zero colour. -/
theorem VerticalLSB_At_outside (i : VerticalLSB) (x y : Int)
    (h : (Point.mk x y).In i.Rect = false) : i.toImage.At x y = Off := by
  simp [VerticalLSB.toImage, VerticalLSB.At, VerticalLSB.BitAt, h, Off]

theorem goDiv_of_ne (a b : Int) (hb : b ≠ 0) : goDiv a b = some (a.tdiv b) := by
  simp [goDiv, hb]

theorem sample_of_ne (sz : IntSize) (i s t : Int) (ht : t ≠ 0) :
    sample sz i s t = some (sampled sz i s t) := by
  simp [sample, sampled, goDiv, ht]

/-- A value in the range of `int` is not changed by the wrap-around. -/
theorem wrap_of_range (sz : IntSize) (z : Int) (h0 : 0 ≤ z) (h1 : z ≤ maxInt sz) :
    wrap sz z = z := by
  cases sz <;> simp only [wrap, maxInt, IntSize.bits] at * <;> omega

theorem maxInt_lt (sz : IntSize) : maxInt sz < 2 ^ 64 := by
  cases sz <;> simp only [maxInt, IntSize.bits] <;> omega

/-- The sizes `image.NewNRGBA` accepts. -/
theorem NewNRGBA_of_fits (p : Platform) (W H : Int) (hW : 0 ≤ W) (hH : 0 ≤ H)
    (h4 : 4 * W < 2 ^ 64) (hfit : 4 * W * H ≤ p.maxAlloc) :
    NewNRGBA p ⟨⟨0, 0⟩, ⟨W, H⟩⟩ = some ⟨⟨⟨0, 0⟩, ⟨W, H⟩⟩, fun _ _ => ⟨0, 0, 0, 0⟩⟩ := by
  have hlt := maxInt_lt p.intSize
  have hle := p.alloc_le
  have hnn : 0 ≤ 4 * W * H := mul_nonneg (by omega) hH
  have hm : mul3NonNeg p.intSize 4 W H = 4 * W * H := by
    simp only [mul3NonNeg]
    rw [if_neg (by omega), if_neg (by omega), if_neg (by omega), if_neg (by omega)]
  simp only [NewNRGBA, Rectangle.Dx, Rectangle.Dy, sub_zero, hm]
  rw [if_neg (by omega), if_neg (by omega)]

/-- Invariant rule for a fold over `0, 1, ..., n-1`. -/
theorem foldl_range_inv {σ : Type} (P : Nat → σ → Prop) (f : σ → Nat → σ) (n : Nat) (s : σ)
    (h0 : P 0 s) (hs : ∀ i st, i < n → P i st → P (i + 1) (f st i)) :
    P n ((List.range n).foldl f s) := by
  induction n with
  | zero => simpa using h0
  | succ k ih =>
    rw [List.range_succ, List.foldl_append]
    simp only [List.foldl_cons, List.foldl_nil]
    exact hs k _ (Nat.lt_succ_self k)
      (ih (fun i st hi hP => hs i st (Nat.lt_succ_of_lt hi) hP))

/-- Invariant rule for a fold over `0, 1, ..., n-1` whose body may panic: when no step
panics under the invariant, the fold returns. -/
theorem foldlM_range_inv {σ : Type} (P : Nat → σ → Prop) (f : σ → Nat → Option σ) (n : Nat)
    (s : σ) (h0 : P 0 s)
    (hs : ∀ i st, i < n → P i st → ∃ st', f st i = some st' ∧ P (i + 1) st') :
    ∃ st', (List.range n).foldlM f s = some st' ∧ P n st' := by
  induction n with
  | zero => exact ⟨s, by simp, h0⟩
  | succ k ih =>
    obtain ⟨st, hst, hP⟩ := ih (fun i st hi hP => hs i st (Nat.lt_succ_of_lt hi) hP)
    obtain ⟨st', hst', hP'⟩ := hs k st (Nat.lt_succ_self k) hP
    refine ⟨st', ?_, hP'⟩
    rw [List.range_succ, List.foldlM_append, hst]
    simp [hst']

/-! ## What `resize` computes -/

/-- One row of `resize`: the inner loop returns, makes one `Set` call per column and
writes row `y` only. -/
theorem resize_row (sz : IntSize) (src : Image) (sW W H y sY : Int) (hy : 0 ≤ y ∧ y < H)
    (st : NRGBA × Nat) (hR : st.1.Rect = ⟨⟨0, 0⟩, ⟨W, H⟩⟩) :
    ∃ st', forRangeM 0 W (fun x (st : NRGBA × Nat) => do
        let sX ← sample sz x sW W
        pure (st.1.Set x y (src.At sX sY), st.2 + 1)) st = some st' ∧
      st'.1.Rect = ⟨⟨0, 0⟩, ⟨W, H⟩⟩ ∧ st'.2 = st.2 + W.toNat ∧
      ∀ x' y', st'.1.Pix x' y' =
        if y' = y ∧ 0 ≤ x' ∧ x' < W then
          NRGBAModel (src.At (sampled sz x' sW W) sY)
        else st.1.Pix x' y' := by
  have key := foldlM_range_inv
    (fun (k : Nat) (s : NRGBA × Nat) =>
      s.1.Rect = ⟨⟨0, 0⟩, ⟨W, H⟩⟩ ∧ s.2 = st.2 + k ∧
      ∀ x' y', s.1.Pix x' y' =
        if y' = y ∧ 0 ≤ x' ∧ x' < (k : Int) then
          NRGBAModel (src.At (sampled sz x' sW W) sY)
        else st.1.Pix x' y')
    (fun (s : NRGBA × Nat) (i : Nat) => do
        let sX ← sample sz (0 + (i : Int)) sW W
        pure (s.1.Set (0 + (i : Int)) y (src.At sX sY), s.2 + 1))
    (W - 0).toNat st
    ⟨hR, by simp, by intro x' y'; rw [if_neg (by rintro ⟨_, h2, h3⟩; omega)]⟩
    (by
      intro i s hi hP
      obtain ⟨hRect, hcnt, hpix⟩ := hP
      have hiW : (i : Int) < W := by omega
      have hW0 : W ≠ 0 := by omega
      have hIn : (Point.mk (i : Int) y).In s.1.Rect = true := by
        rw [hRect, In_iff]
        exact ⟨Int.natCast_nonneg i, hiW, hy.1, hy.2⟩
      refine ⟨(s.1.Set (i : Int) y (src.At (sampled sz (i : Int) sW W) sY),
        s.2 + 1), ?_, ?_, ?_, ?_⟩
      · simp [sample_of_ne sz _ _ _ hW0]
      · simp only [NRGBA.Set, hIn, if_true]
        exact hRect
      · simp [hcnt]; omega
      · intro x' y'
        simp only [NRGBA.Set, hIn, if_true]
        by_cases hx : x' = (i : Int) ∧ y' = y
        · obtain ⟨rfl, rfl⟩ := hx
          simp
        · rw [if_neg hx, hpix]
          have : (y' = y ∧ 0 ≤ x' ∧ x' < ((i + 1 : Nat) : Int)) ↔
              (y' = y ∧ 0 ≤ x' ∧ x' < (i : Int)) := by
            constructor
            · rintro ⟨h1, h2, h3⟩
              refine ⟨h1, h2, ?_⟩
              by_contra hc
              exact hx ⟨by omega, h1⟩
            · rintro ⟨h1, h2, h3⟩
              exact ⟨h1, h2, by omega⟩
          simp only [this])
  obtain ⟨st', h1, h2, h3, h4⟩ := key
  refine ⟨st', ?_, h2, ?_, ?_⟩
  · simpa only [forRangeM] using h1
  · simpa using h3
  · intro x' y'
    rw [h4]
    have : (y' = y ∧ 0 ≤ x' ∧ x' < (((W - 0).toNat : Nat) : Int)) ↔
        (y' = y ∧ 0 ≤ x' ∧ x' < W) := by
      constructor
      · rintro ⟨h1, h2, h3⟩; exact ⟨h1, h2, by omega⟩
      · rintro ⟨h1, h2, h3⟩; exact ⟨h1, h2, by omega⟩
    simp only [this]

/-- For a target size that `image.NewNRGBA` accepts `resize` returns: it makes one `Set`
call per destination pixel, and stores at `(x, y)` the NRGBA conversion of the source
pixel at the sampled coordinate. -/
theorem resizeTraced_spec (p : Platform) (src : Image) (W H : Int) (hW : 0 ≤ W)
    (hH : 0 ≤ H) (h4 : 4 * W < 2 ^ 64) (hfit : 4 * W * H ≤ p.maxAlloc) :
    ∃ dst, resizeTraced p src ⟨W, H⟩ = some (dst, H.toNat * W.toNat) ∧
      dst.Rect = ⟨⟨0, 0⟩, ⟨W, H⟩⟩ ∧
      ∀ x y, dst.Pix x y =
        if (0 ≤ x ∧ x < W) ∧ (0 ≤ y ∧ y < H) then
          NRGBAModel (src.At (sampled p.intSize x src.Bounds.Max.X W)
            (sampled p.intSize y src.Bounds.Max.Y H))
        else ⟨0, 0, 0, 0⟩ := by
  have hnew := NewNRGBA_of_fits p W H hW hH h4 hfit
  have key := foldlM_range_inv
    (fun (j : Nat) (s : NRGBA × Nat) =>
      s.1.Rect = ⟨⟨0, 0⟩, ⟨W, H⟩⟩ ∧ s.2 = j * W.toNat ∧
      ∀ x y, s.1.Pix x y =
        if (0 ≤ x ∧ x < W) ∧ (0 ≤ y ∧ y < (j : Int)) then
          NRGBAModel (src.At (sampled p.intSize x src.Bounds.Max.X W)
            (sampled p.intSize y src.Bounds.Max.Y H))
        else ⟨0, 0, 0, 0⟩)
    (fun (s : NRGBA × Nat) (j : Nat) => do
        let sY ← sample p.intSize (0 + (j : Int)) src.Bounds.Max.Y H
        forRangeM 0 W (fun x (st : NRGBA × Nat) => do
          let sX ← sample p.intSize x src.Bounds.Max.X W
          pure (st.1.Set x (0 + (j : Int)) (src.At sX sY), st.2 + 1)) s)
    (H - 0).toNat (⟨⟨⟨0, 0⟩, ⟨W, H⟩⟩, fun _ _ => ⟨0, 0, 0, 0⟩⟩, 0)
    ⟨rfl, by simp, by intro x y; rw [if_neg (by rintro ⟨_, h2, h3⟩; omega)]⟩
    (by
      intro j s hj hQ
      obtain ⟨hRect, hcnt, hpix⟩ := hQ
      have hjH : (j : Int) < H := by omega
      have hH0 : H ≠ 0 := by omega
      obtain ⟨st', hrun, hR', hc', hp'⟩ := resize_row p.intSize src src.Bounds.Max.X W H (j : Int)
        (sampled p.intSize (j : Int) src.Bounds.Max.Y H)
        ⟨Int.natCast_nonneg j, hjH⟩ s hRect
      refine ⟨st', ?_, hR', ?_, ?_⟩
      · simp only [sample_of_ne p.intSize _ _ _ hH0, zero_add, Option.bind_eq_bind, Option.some_bind]
        exact hrun
      · rw [hc', hcnt]; ring
      · intro x y
        rw [hp', hpix]
        by_cases hy : y = (j : Int)
        · subst hy
          by_cases hx : 0 ≤ x ∧ x < W
          · rw [if_pos ⟨rfl, hx⟩, if_pos ⟨hx, Int.natCast_nonneg j, by push_cast; omega⟩]
          · rw [if_neg (fun h => hx h.2), if_neg (fun h => hx h.1), if_neg (fun h => hx h.1)]
        · rw [if_neg (fun h => hy h.1)]
          have : ((0 ≤ x ∧ x < W) ∧ (0 ≤ y ∧ y < ((j + 1 : Nat) : Int))) ↔
              ((0 ≤ x ∧ x < W) ∧ (0 ≤ y ∧ y < (j : Int))) := by
            constructor
            · rintro ⟨h1, h2, h3⟩
              exact ⟨h1, h2, by push_cast at h3; omega⟩
            · rintro ⟨h1, h2, h3⟩
              exact ⟨h1, h2, by push_cast; omega⟩
          simp only [this])
  obtain ⟨st', h1, h2, h3, h4⟩ := key
  refine ⟨st'.1, ?_, h2, ?_⟩
  · simp only [resizeTraced, hnew, Option.bind_eq_bind, Option.some_bind]
    have : st' = (st'.1, H.toNat * W.toNat) := by
      rw [← Int.sub_zero H] at h3 ⊢
      exact Prod.ext rfl (by simpa using h3)
    rw [← this]
    simpa only [forRangeM] using h1
  · intro x y
    rw [h4]
    have : ((0 ≤ x ∧ x < W) ∧ (0 ≤ y ∧ y < (((H - 0).toNat : Nat) : Int))) ↔
        ((0 ≤ x ∧ x < W) ∧ (0 ≤ y ∧ y < H)) := by
      constructor
      · rintro ⟨h1, h2, h3⟩; exact ⟨h1, h2, by omega⟩
      · rintro ⟨h1, h2, h3⟩; exact ⟨h1, h2, by omega⟩
    simp only [this]

/-! ## What `draw.Draw` computes -/

/-- One row of the general path of `draw.Draw`. -/
theorem draw_row (R : Rectangle) (c : Int → Color) (x0 x1 y : Int)
    (hin : ∀ x, x0 ≤ x → x < x1 → (Point.mk x y).In R = true)
    (d : VerticalLSB) (hR : d.Rect = R) :
    (forRange x0 x1 (fun x d => d.Set x y (c x)) d).Rect = R ∧
    ∀ x' y', (forRange x0 x1 (fun x d => d.Set x y (c x)) d).Pix x' y' =
      if y' = y ∧ x0 ≤ x' ∧ x' < x1 then convertBit (c x') else d.Pix x' y' := by
  have key := foldl_range_inv
    (fun (k : Nat) (s : VerticalLSB) =>
      s.Rect = R ∧ ∀ x' y', s.Pix x' y' =
        if y' = y ∧ x0 ≤ x' ∧ x' < x0 + (k : Int) then convertBit (c x') else d.Pix x' y')
    (fun (s : VerticalLSB) (i : Nat) => s.Set (x0 + (i : Int)) y (c (x0 + (i : Int))))
    (x1 - x0).toNat d
    ⟨hR, by intro x' y'; rw [if_neg (by rintro ⟨_, h2, h3⟩; omega)]⟩
    (by
      intro i s hi hP
      obtain ⟨hRect, hpix⟩ := hP
      have hIn : (Point.mk (x0 + (i : Int)) y).In s.Rect = true := by
        rw [hRect]; exact hin _ (by omega) (by omega)
      refine ⟨?_, ?_⟩
      · simp only [VerticalLSB.Set, hIn, if_true]
        exact hRect
      · intro x' y'
        simp only [VerticalLSB.Set, hIn, if_true]
        by_cases hx : x' = x0 + (i : Int) ∧ y' = y
        · obtain ⟨rfl, rfl⟩ := hx
          rw [if_pos ⟨rfl, rfl⟩, if_pos ⟨rfl, by omega, by push_cast; omega⟩]
        · rw [if_neg hx, hpix]
          have : (y' = y ∧ x0 ≤ x' ∧ x' < x0 + ((i + 1 : Nat) : Int)) ↔
              (y' = y ∧ x0 ≤ x' ∧ x' < x0 + (i : Int)) := by
            constructor
            · rintro ⟨h1, h2, h3⟩
              refine ⟨h1, h2, ?_⟩
              by_contra hc
              exact hx ⟨by push_cast at h3; omega, h1⟩
            · rintro ⟨h1, h2, h3⟩
              exact ⟨h1, h2, by push_cast; omega⟩
          simp only [this])
  obtain ⟨h1, h2⟩ := key
  refine ⟨h1, ?_⟩
  intro x' y'
  have h3 := h2 x' y'
  have : (y' = y ∧ x0 ≤ x' ∧ x' < x0 + (((x1 - x0).toNat : Nat) : Int)) ↔
      (y' = y ∧ x0 ≤ x' ∧ x' < x1) := by
    constructor
    · rintro ⟨h1, h2, h3⟩; exact ⟨h1, h2, by omega⟩
    · rintro ⟨h1, h2, h3⟩; exact ⟨h1, h2, by omega⟩
  simp only [this] at h3
  exact h3

/-- The nested loops of the general path of `draw.Draw` over a rectangle inside the
destination: they set exactly the pixels of that rectangle. -/
theorem draw_rect (R : Rectangle) (c : Int → Int → Color) (x0 x1 y0 y1 : Int)
    (hin : ∀ x y, x0 ≤ x → x < x1 → y0 ≤ y → y < y1 → (Point.mk x y).In R = true)
    (d : VerticalLSB) (hR : d.Rect = R) :
    (forRange y0 y1 (fun y d => forRange x0 x1 (fun x d => d.Set x y (c x y)) d) d).Rect = R ∧
    ∀ x' y', (forRange y0 y1 (fun y d =>
        forRange x0 x1 (fun x d => d.Set x y (c x y)) d) d).Pix x' y' =
      if (x0 ≤ x' ∧ x' < x1) ∧ (y0 ≤ y' ∧ y' < y1) then convertBit (c x' y')
      else d.Pix x' y' := by
  have key := foldl_range_inv
    (fun (k : Nat) (s : VerticalLSB) =>
      s.Rect = R ∧ ∀ x' y', s.Pix x' y' =
        if (x0 ≤ x' ∧ x' < x1) ∧ (y0 ≤ y' ∧ y' < y0 + (k : Int)) then convertBit (c x' y')
        else d.Pix x' y')
    (fun (s : VerticalLSB) (j : Nat) =>
      forRange x0 x1 (fun x d => d.Set x (y0 + (j : Int)) (c x (y0 + (j : Int)))) s)
    (y1 - y0).toNat d
    ⟨hR, by intro x' y'; rw [if_neg (by rintro ⟨_, h2, h3⟩; omega)]⟩
    (by
      intro j s hj hP
      obtain ⟨hRect, hpix⟩ := hP
      obtain ⟨hr, hp⟩ := draw_row R (fun x => c x (y0 + (j : Int))) x0 x1 (y0 + (j : Int))
        (fun x hx0 hx1 => hin x _ hx0 hx1 (by omega) (by omega)) s hRect
      refine ⟨hr, ?_⟩
      intro x' y'
      rw [hp, hpix]
      by_cases hy : y' = y0 + (j : Int)
      · subst hy
        by_cases hx : x0 ≤ x' ∧ x' < x1
        · rw [if_pos ⟨rfl, hx⟩, if_pos ⟨hx, by omega, by push_cast; omega⟩]
        · rw [if_neg (fun h => hx h.2), if_neg (fun h => hx h.1), if_neg (fun h => hx h.1)]
      · rw [if_neg (fun h => hy h.1)]
        have : ((x0 ≤ x' ∧ x' < x1) ∧ (y0 ≤ y' ∧ y' < y0 + ((j + 1 : Nat) : Int))) ↔
            ((x0 ≤ x' ∧ x' < x1) ∧ (y0 ≤ y' ∧ y' < y0 + (j : Int))) := by
          constructor
          · rintro ⟨h1, h2, h3⟩
            exact ⟨h1, h2, by push_cast at h3; omega⟩
          · rintro ⟨h1, h2, h3⟩
            exact ⟨h1, h2, by push_cast; omega⟩
        simp only [this])
  obtain ⟨h1, h2⟩ := key
  refine ⟨h1, ?_⟩
  intro x' y'
  have h3 := h2 x' y'
  have : ((x0 ≤ x' ∧ x' < x1) ∧ (y0 ≤ y' ∧ y' < y0 + (((y1 - y0).toNat : Nat) : Int))) ↔
      ((x0 ≤ x' ∧ x' < x1) ∧ (y0 ≤ y' ∧ y' < y1)) := by
    constructor
    · rintro ⟨h1, h2, h3⟩; exact ⟨h1, h2, by omega⟩
    · rintro ⟨h1, h2, h3⟩; exact ⟨h1, h2, by omega⟩
  simp only [this] at h3
  exact h3

theorem clip_fst (dstB r srcB : Rectangle) (sp : Point) :
    (clip dstB r srcB sp).1 = (r.Intersect dstB).Intersect (srcB.Add (r.Min.Sub sp)) := by
  simp only [clip]
  split_ifs <;> rfl

theorem clip_snd (dstB r srcB : Rectangle) (sp : Point) :
    (clip dstB r srcB sp).2.X - (clip dstB r srcB sp).1.Min.X = sp.X - r.Min.X ∧
    (clip dstB r srcB sp).2.Y - (clip dstB r srcB sp).1.Min.Y = sp.Y - r.Min.Y := by
  simp only [clip]
  split_ifs with h
  · constructor <;> simp only <;> omega
  · constructor <;> simp only <;> omega

/-- The effect of `draw.Draw(dst, r, src, sp, draw.Src)`: the bounds of `dst` are kept,
and a pixel is overwritten, by the source pixel at `sp + ((x,y) - r.Min)`, exactly when it
lies in `r`, in the bounds of `dst` and in the translated bounds of `src`. -/
theorem Draw_spec (dst : VerticalLSB) (r : Rectangle) (src : Image) (sp : Point) :
    (Draw dst r src sp).Rect = dst.Rect ∧
    ∀ x y, (Draw dst r src sp).Pix x y =
      if (Point.mk x y).In r = true ∧ (Point.mk x y).In dst.Rect = true ∧
          (Point.mk x y).In (src.Bounds.Add (r.Min.Sub sp)) = true then
        convertBit (src.At (sp.X + (x - r.Min.X)) (sp.Y + (y - r.Min.Y)))
      else dst.Pix x y := by
  have hmem : ∀ x y, (Point.mk x y).In (clip dst.Rect r src.Bounds sp).1 = true ↔
      ((Point.mk x y).In r = true ∧ (Point.mk x y).In dst.Rect = true ∧
        (Point.mk x y).In (src.Bounds.Add (r.Min.Sub sp)) = true) := by
    intro x y
    rw [clip_fst, In_Intersect, In_Intersect, and_assoc]
  obtain ⟨hsx, hsy⟩ := clip_snd dst.Rect r src.Bounds sp
  have hcoord : ∀ x y,
      src.At ((clip dst.Rect r src.Bounds sp).2.X + (x - (clip dst.Rect r src.Bounds sp).1.Min.X))
        ((clip dst.Rect r src.Bounds sp).2.Y + (y - (clip dst.Rect r src.Bounds sp).1.Min.Y)) =
      src.At (sp.X + (x - r.Min.X)) (sp.Y + (y - r.Min.Y)) := by
    intro x y
    congr 1 <;> omega
  by_cases hE : (clip dst.Rect r src.Bounds sp).1.Empty = true
  · have hD : Draw dst r src sp = dst := by
      simp only [Draw, hE, if_true]
    rw [hD]
    refine ⟨rfl, ?_⟩
    intro x y
    rw [if_neg]
    rw [← hmem, In_iff]
    simp only [Rectangle.Empty, Bool.or_eq_true, decide_eq_true_eq] at hE
    omega
  · have hD : Draw dst r src sp =
        forRange (clip dst.Rect r src.Bounds sp).1.Min.Y (clip dst.Rect r src.Bounds sp).1.Max.Y
          (fun y d => forRange (clip dst.Rect r src.Bounds sp).1.Min.X
            (clip dst.Rect r src.Bounds sp).1.Max.X (fun x d =>
              d.Set x y (src.At
                ((clip dst.Rect r src.Bounds sp).2.X + (x - (clip dst.Rect r src.Bounds sp).1.Min.X))
                ((clip dst.Rect r src.Bounds sp).2.Y + (y - (clip dst.Rect r src.Bounds sp).1.Min.Y))))
              d) dst := by
      simp only [Draw, hE]
      rfl
    obtain ⟨h1, h2⟩ := draw_rect dst.Rect
      (fun x y => src.At
        ((clip dst.Rect r src.Bounds sp).2.X + (x - (clip dst.Rect r src.Bounds sp).1.Min.X))
        ((clip dst.Rect r src.Bounds sp).2.Y + (y - (clip dst.Rect r src.Bounds sp).1.Min.Y)))
      (clip dst.Rect r src.Bounds sp).1.Min.X (clip dst.Rect r src.Bounds sp).1.Max.X
      (clip dst.Rect r src.Bounds sp).1.Min.Y (clip dst.Rect r src.Bounds sp).1.Max.Y
      (by
        intro x y hx0 hx1 hy0 hy1
        exact ((hmem x y).1 ((In_iff x y _).2 ⟨hx0, hx1, hy0, hy1⟩)).2.1)
      dst rfl
    rw [hD]
    refine ⟨h1, ?_⟩
    intro x y
    rw [h2, hcoord]
    by_cases hI : (Point.mk x y).In (clip dst.Rect r src.Bounds sp).1 = true
    · rw [if_pos ((hmem x y).1 hI), if_pos]
      have := (In_iff x y _).1 hI
      exact ⟨⟨this.1, this.2.1⟩, this.2.2.1, this.2.2.2⟩
    · rw [if_neg (fun h => hI ((hmem x y).2 h)), if_neg]
      intro h
      exact hI ((In_iff x y _).2 ⟨h.1.1, h.1.2, h.2.1, h.2.2⟩)

/-! ## What `convert` computes -/

theorem NewVerticalLSB_of_wf (B : Rectangle) (hx : 0 ≤ B.Dx) (hy : 0 ≤ B.Dy) :
    NewVerticalLSB B = some ⟨B, fun _ _ => false⟩ := by
  have hb : 0 ≤ ((B.Max.Y + 7 - (B.Max.Y + 7) % 8) - (B.Min.Y - B.Min.Y % 8)).tdiv 8 := by
    apply Int.tdiv_nonneg _ (by decide)
    simp only [Rectangle.Dy] at hy
    omega
  have := mul_nonneg hx hb
  simp only [NewVerticalLSB]
  rw [if_neg (by omega)]

/-- The packing step on a source whose bounds start at the origin: the frame has the
bounds of the display, and a pixel is on exactly when it lies in the source rectangle moved by
the centring offset and in the bounds of the display, and the source pixel there is on. -/
theorem packStep_spec (B : Rectangle) (size : Point) (src : Image)
    (hx : 0 ≤ B.Dx) (hy : 0 ≤ B.Dy) (h0 : src.Bounds.Min = ⟨0, 0⟩) :
    ∃ img, packStep B size src = some img ∧ img.Rect = B ∧
      ∀ x y, img.Pix x y =
        if (Point.mk x y).In (src.Bounds.Add
              ⟨(size.X - src.Bounds.Max.X).tdiv 2, (size.Y - src.Bounds.Max.Y).tdiv 2⟩) = true ∧
            (Point.mk x y).In B = true then
          convertBit (src.At (x - (size.X - src.Bounds.Max.X).tdiv 2)
            (y - (size.Y - src.Bounds.Max.Y).tdiv 2))
        else false := by
  obtain ⟨h1, h2⟩ := Draw_spec ⟨B, fun _ _ => false⟩
    (src.Bounds.Add ⟨(size.X - src.Bounds.Max.X).tdiv 2, (size.Y - src.Bounds.Max.Y).tdiv 2⟩)
    src ⟨0, 0⟩
  refine ⟨_, ?_, h1, ?_⟩
  · simp only [packStep, NewVerticalLSB_of_wf B hx hy, goDiv_of_ne _ 2 (by decide),
      Option.bind_eq_bind, Option.some_bind]
    rfl
  · intro x y
    rw [h2]
    have hX : src.Bounds.Min.X = 0 := by rw [h0]
    have hY : src.Bounds.Min.Y = 0 := by rw [h0]
    have hadd : (src.Bounds.Add ((src.Bounds.Add
        ⟨(size.X - src.Bounds.Max.X).tdiv 2, (size.Y - src.Bounds.Max.Y).tdiv 2⟩).Min.Sub
          ⟨0, 0⟩)) = src.Bounds.Add
        ⟨(size.X - src.Bounds.Max.X).tdiv 2, (size.Y - src.Bounds.Max.Y).tdiv 2⟩ := by
      simp [Rectangle.Add, Point.Sub, hX, hY]
    rw [hadd]
    have hc : src.At (0 + (x - (src.Bounds.Add
          ⟨(size.X - src.Bounds.Max.X).tdiv 2, (size.Y - src.Bounds.Max.Y).tdiv 2⟩).Min.X))
        (0 + (y - (src.Bounds.Add
          ⟨(size.X - src.Bounds.Max.X).tdiv 2, (size.Y - src.Bounds.Max.Y).tdiv 2⟩).Min.Y)) =
        src.At (x - (size.X - src.Bounds.Max.X).tdiv 2)
          (y - (size.Y - src.Bounds.Max.Y).tdiv 2) := by
      simp [Rectangle.Add, hX, hY]
    simp only [hc]
    by_cases hA : (Point.mk x y).In (src.Bounds.Add
        ⟨(size.X - src.Bounds.Max.X).tdiv 2, (size.Y - src.Bounds.Max.Y).tdiv 2⟩) = true
    · by_cases hB : (Point.mk x y).In B = true
      · rw [if_pos ⟨hA, hB, hA⟩, if_pos ⟨hA, hB⟩]
      · rw [if_neg (fun h => hB h.2.1), if_neg (fun h => hB h.2)]
    · rw [if_neg (fun h => hA h.1), if_neg (fun h => hA h.1)]

/-- For display bounds of a size that `image.NewNRGBA` accepts `convert` returns a frame
with the bounds of the display, in which a pixel is on exactly when it lies in both
`(0,0)-(W,H)` and the bounds of the display and the resized source pixel there is on. -/
theorem convert_spec (p : Platform) (B : Rectangle) (src : Image) (hx : 0 ≤ B.Dx)
    (hy : 0 ≤ B.Dy) (h4 : 4 * B.Dx < 2 ^ 64) (hfit : 4 * B.Dx * B.Dy ≤ p.maxAlloc) :
    ∃ img, convert p B src = some img ∧ img.Rect = B ∧
      ∀ x y, img.Pix x y =
        if ((0 ≤ x ∧ x < B.Dx) ∧ (0 ≤ y ∧ y < B.Dy)) ∧ (Point.mk x y).In B = true then
          convertBit (Color.NRGBA (NRGBAModel (src.At
            (sampled p.intSize x src.Bounds.Max.X B.Dx) (sampled p.intSize y src.Bounds.Max.Y B.Dy))))
        else false := by
  obtain ⟨dst, hres, hrect, hpix⟩ := resizeTraced_spec p src B.Dx B.Dy hx hy h4 hfit
  have hMin : dst.toImage.Bounds.Min = ⟨0, 0⟩ := by
    simp [NRGBA.toImage, hrect]
  obtain ⟨img, hpack, hR, hP⟩ := packStep_spec B B.Size dst.toImage hx hy hMin
  refine ⟨img, ?_, hR, ?_⟩
  · have hresize : resize p src B.Size = some dst := by
      simp only [resize]
      have : B.Size = ⟨B.Dx, B.Dy⟩ := rfl
      rw [this, hres]
      rfl
    simp only [convert, hresize, Option.bind_eq_bind, Option.some_bind]
    exact hpack
  · intro x y
    rw [hP]
    have hMaxX : dst.toImage.Bounds.Max.X = B.Dx := by simp [NRGBA.toImage, hrect]
    have hMaxY : dst.toImage.Bounds.Max.Y = B.Dy := by simp [NRGBA.toImage, hrect]
    have hsx : B.Size.X = B.Dx := rfl
    have hsy : B.Size.Y = B.Dy := rfl
    have hbd : dst.toImage.Bounds = ⟨⟨0, 0⟩, ⟨B.Dx, B.Dy⟩⟩ := by simp [NRGBA.toImage, hrect]
    simp only [hMaxX, hMaxY, hsx, hsy, sub_self, Int.zero_tdiv, sub_zero]
    have hshift : dst.toImage.Bounds.Add ⟨0, 0⟩ = ⟨⟨0, 0⟩, ⟨B.Dx, B.Dy⟩⟩ := by
      rw [hbd]; simp [Rectangle.Add]
    rw [hshift]
    by_cases hI : (Point.mk x y).In ⟨⟨0, 0⟩, ⟨B.Dx, B.Dy⟩⟩ = true
    · have hI' := (In_iff x y _).1 hI
      simp only at hI'
      by_cases hB : (Point.mk x y).In B = true
      · rw [if_pos ⟨hI, hB⟩, if_pos ⟨⟨⟨hI'.1, hI'.2.1⟩, hI'.2.2.1, hI'.2.2.2⟩, hB⟩]
        have hAt : dst.toImage.At x y = Color.NRGBA (dst.Pix x y) := by
          simp only [NRGBA.toImage, NRGBA.At, hrect, hI, if_true]
        rw [hAt, hpix, if_pos ⟨⟨hI'.1, hI'.2.1⟩, hI'.2.2.1, hI'.2.2.2⟩]
      · rw [if_neg (fun h => hB h.2), if_neg (fun h => hB h.2)]
    · rw [if_neg (fun h => hI h.1), if_neg]
      intro h
      exact hI ((In_iff x y _).2 ⟨h.1.1.1, h.1.1.2, h.1.2.1, h.1.2.2⟩)

/-! ## Colours through the pipeline -/

theorem isOff_of_isZero (c : Color) (h : c.isZero = true) : c.isOff = true := by
  cases c with
  | Bit b => cases b <;> simp_all [Color.isZero, Color.isOff, Color.RGBA]
  | NRGBA n =>
    simp only [Color.isZero, decide_eq_true_eq] at h
    subst h
    simp [Color.isOff, Color.RGBA]
  | Other r g b a =>
    simp only [Color.isZero, Bool.and_eq_true, decide_eq_true_eq] at h
    obtain ⟨⟨⟨rfl, rfl⟩, rfl⟩, rfl⟩ := h
    simp [Color.isOff, Color.RGBA]

/-- A background pixel stays off through `resize` (stored as NRGBA) and the packing
(converted to a bit). -/
theorem convertBit_NRGBAModel_of_isOff (c : Color) (h : c.isOff = true) :
    convertBit (Color.NRGBA (NRGBAModel c)) = false := by
  cases c with
  | Bit b =>
    cases b
    · simp [NRGBAModel, Color.RGBA, convertBit]
    · simp [Color.isOff, Color.RGBA] at h
  | NRGBA n =>
    simp only [Color.isOff, Color.RGBA, Bool.and_eq_true, decide_eq_true_eq] at h
    obtain ⟨⟨h1, h2⟩, h3⟩ := h
    simp only [NRGBAModel, convertBit, Color.RGBA, h1, h2, h3]
    decide
  | Other r g b a =>
    simp only [Color.isOff, Color.RGBA, Bool.and_eq_true, decide_eq_true_eq] at h
    obtain ⟨⟨h1, h2⟩, h3⟩ := h
    simp only [NRGBAModel, Color.RGBA, h1, h2, h3]
    split_ifs <;> simp [convertBit, Color.RGBA]

/-! ## Sampling arithmetic -/

/-- Without overflow the sampled coordinate is the quotient `(x*s + t/2) / t`. -/
theorem sampled_eq (sz : IntSize) (x s t : Int) (hx : 0 ≤ x) (hs : 0 ≤ s) (ht : 0 < t)
    (ho : x * s + t / 2 ≤ maxInt sz) :
    sampled sz x s t = (x * s + t / 2) / t ∧
    sampled sz x s t = (x * s + t.tdiv 2).tdiv t := by
  have h2 : t.tdiv 2 = t / 2 := Int.tdiv_eq_ediv (by omega) (by decide)
  have hxs : 0 ≤ x * s := mul_nonneg hx hs
  have hw1 : wrap sz (x * s) = x * s := wrap_of_range sz _ hxs (by omega)
  have hw2 : wrap sz (x * s + t / 2) = x * s + t / 2 := wrap_of_range sz _ (by omega) ho
  simp only [sampled, h2, hw1, hw2]
  exact ⟨Int.tdiv_eq_ediv (by omega) (by omega), trivial⟩

/-- The largest sampled expression bounds all of them. -/
theorem sample_expr_le (x s t : Int) (hs : 0 ≤ s) (hxt : x < t) :
    x * s + t / 2 ≤ (t - 1) * s + t / 2 := by
  have h1 : x * s ≤ (t - 1) * s := mul_le_mul_of_nonneg_right (by omega) hs
  omega

theorem sample_nonneg_eq (sz : IntSize) (x s t : Int) (hx : 0 ≤ x) (hs : 0 ≤ s)
    (ht : 0 < t) (ho : x * s + t / 2 ≤ maxInt sz) :
    sample sz x s t = some ((x * s + t / 2) / t) := by
  rw [sample_of_ne sz x s t (by omega), (sampled_eq sz x s t hx hs ht ho).1]

theorem ediv_sample_self (x t : Int) (hx : 0 ≤ x) (hxt : x < t) :
    (x * t + t / 2) / t = x := by
  rw [Int.add_comm, Int.add_mul_ediv_right _ _ (by omega : t ≠ 0),
    Int.ediv_eq_zero_of_lt (by omega) (by omega)]
  simp

/-- Without overflow the sampled coordinate stays inside the source when the target
extent is less than twice the source extent. -/
theorem sampled_in_bounds (sz : IntSize) (x s t : Int) (hx : 0 ≤ x) (hxt : x < t)
    (hs : 0 ≤ s) (hlt : t < 2 * s) (ho : (t - 1) * s + t / 2 ≤ maxInt sz) :
    0 ≤ sampled sz x s t ∧ sampled sz x s t < s := by
  have hle := sample_expr_le x s t hs hxt
  rw [(sampled_eq sz x s t hx hs (by omega) (by omega)).1]
  have hxs : 0 ≤ x * s := mul_nonneg hx hs
  refine ⟨Int.ediv_nonneg (by omega) (by omega), ?_⟩
  apply Int.ediv_lt_of_lt_mul (by omega)
  have h2 : (t - 1) * s = s * t - s := by ring
  omega

theorem four_mul_lt (p : Platform) (W H : Int) (hW : 0 ≤ W) (hH : 0 < H)
    (hfit : 4 * W * H ≤ p.maxAlloc) : 4 * W < 2 ^ 64 := by
  have hlt := maxInt_lt p.intSize
  have hle := p.alloc_le
  have h1 : 4 * W * 1 ≤ 4 * W * H := mul_le_mul_of_nonneg_left (by omega) (by omega)
  omega

theorem resize_spec (p : Platform) (src : Image) (W H : Int) (hW : 0 ≤ W) (hH : 0 ≤ H)
    (h4 : 4 * W < 2 ^ 64) (hfit : 4 * W * H ≤ p.maxAlloc) :
    ∃ dst, resize p src ⟨W, H⟩ = some dst ∧ dst.Rect = ⟨⟨0, 0⟩, ⟨W, H⟩⟩ ∧
      ∀ x y, 0 ≤ x → x < W → 0 ≤ y → y < H →
        dst.At x y = Color.NRGBA (NRGBAModel (src.At
          (sampled p.intSize x src.Bounds.Max.X W) (sampled p.intSize y src.Bounds.Max.Y H))) := by
  obtain ⟨dst, hres, hrect, hpix⟩ := resizeTraced_spec p src W H hW hH h4 hfit
  refine ⟨dst, by simp [resize, hres], hrect, ?_⟩
  intro x y hx0 hx1 hy0 hy1
  have hIn : (Point.mk x y).In dst.Rect = true := by
    rw [hrect, In_iff]; exact ⟨hx0, hx1, hy0, hy1⟩
  simp only [NRGBA.At, hIn, if_true]
  rw [hpix, if_pos ⟨⟨hx0, hx1⟩, hy0, hy1⟩]

/-- Without overflow `resize` stores at `(x, y)` the NRGBA conversion of the source pixel
at `((x*srcW + W/2)/W, (y*srcH + H/2)/H)`. -/
theorem resize_spec_in_range (p : Platform) (src : Image) (srcW srcH W H : Int)
    (hsrc : src.Bounds = ⟨⟨0, 0⟩, ⟨srcW, srcH⟩⟩) (hsW : 0 ≤ srcW) (hsH : 0 ≤ srcH)
    (hW : 0 < W) (hH : 0 < H) (hfit : 4 * W * H ≤ p.maxAlloc)
    (hoX : (W - 1) * srcW + W / 2 ≤ maxInt p.intSize)
    (hoY : (H - 1) * srcH + H / 2 ≤ maxInt p.intSize) :
    ∃ dst, resize p src ⟨W, H⟩ = some dst ∧ dst.Rect = ⟨⟨0, 0⟩, ⟨W, H⟩⟩ ∧
      ∀ x y, 0 ≤ x → x < W → 0 ≤ y → y < H →
        dst.At x y = Color.NRGBA (NRGBAModel (src.At
          ((x * srcW + W.tdiv 2).tdiv W) ((y * srcH + H.tdiv 2).tdiv H))) := by
  obtain ⟨dst, hres, hrect, hpix⟩ := resize_spec p src W H (le_of_lt hW) (le_of_lt hH)
    (four_mul_lt p W H (le_of_lt hW) hH hfit) hfit
  refine ⟨dst, hres, hrect, ?_⟩
  intro x y hx0 hx1 hy0 hy1
  have h := hpix x y hx0 hx1 hy0 hy1
  rw [hsrc] at h
  have hx := sample_expr_le x srcW W hsW hx1
  have hy := sample_expr_le y srcH H hsH hy1
  rw [(sampled_eq p.intSize x srcW W hx0 hsW hW (by omega)).2,
    (sampled_eq p.intSize y srcH H hy0 hsH hH (by omega)).2] at h
  exact h

/-! ## The refresh loop -/

/-- One tick: `loop` returns, having given exactly one frame to `Draw`; it returns what
that `Draw` returned; the frame is `convert` of a blank frame of the size of the display and
has every pixel off, whatever the host name and the address are. -/
theorem loop_spec (p : Platform) (env : Env) (inet : String) (s : State) :
    ∃ img, loop p env inet s =
        some ({ s with info := ⟨env.getHostname s.ticks, env.GetInternalIP s.ticks inet⟩,
                       ticks := s.ticks + 1, drawn := s.drawn ++ [img] },
              env.drawResult s.drawn.length) ∧
      convert p s.Bounds (VerticalLSB.mk s.Bounds (fun _ _ => false)).toImage = some img ∧
      img.Rect = s.Bounds ∧ ∀ x y, img.BitAt x y = false := by
  have hx : 0 ≤ s.Bounds.Dx := by simp [State.Bounds, Rectangle.Dx]
  have hy : 0 ≤ s.Bounds.Dy := by simp [State.Bounds, Rectangle.Dy]
  have hW := s.hW
  have hH := s.hH
  have hdx : s.Bounds.Dx = (s.W : Int) := by simp [State.Bounds, Rectangle.Dx]
  have hdy : s.Bounds.Dy = (s.H : Int) := by simp [State.Bounds, Rectangle.Dy]
  have hprod : s.W * s.H ≤ 128 * 64 := Nat.mul_le_mul hW hH
  have hprod' : (s.W : Int) * (s.H : Int) ≤ 8192 := by exact_mod_cast hprod
  have h4 : 4 * s.Bounds.Dx < 2 ^ 64 := by rw [hdx]; omega
  have hfit : 4 * s.Bounds.Dx * s.Bounds.Dy ≤ p.maxAlloc := by
    have hf := p.frame_le
    rw [hdx, hdy, mul_assoc]
    omega
  obtain ⟨img, hconv, hR, hP⟩ := convert_spec p s.Bounds
    (VerticalLSB.mk s.Bounds (fun _ _ => false)).toImage hx hy h4 hfit
  refine ⟨img, ?_, hconv, hR, ?_⟩
  · simp only [loop, NewVerticalLSB_of_wf s.Bounds hx hy, hconv, Option.bind_eq_bind,
      Option.some_bind]
    cases env.drawResult s.drawn.length <;> rfl
  · intro x y
    simp only [VerticalLSB.BitAt]
    split_ifs
    · rw [hP]
      split_ifs
      · apply convertBit_NRGBAModel_of_isOff
        simp [VerticalLSB.toImage, VerticalLSB.At, VerticalLSB.BitAt, Color.isOff,
          Color.RGBA]
      · rfl
    · rfl

theorem mainImpl_succ (p : Platform) (env : Env) (inet : String) (n : Nat) (s : State) :
    mainImpl p env inet (n + 1) s =
      match loop p env inet s with
      | none => Run.panicked
      | some (s', some err) => Run.returned s' err
      | some (s', none) => mainImpl p env inet n s' := rfl

theorem length_drawn_succ (l : List VerticalLSB) (img : VerticalLSB) (i : Nat) :
    (l ++ [img]).length + i = l.length + (i + 1) := by
  simp only [List.length_append, List.length_singleton]
  omega

/-- While `Draw` succeeds the `for` loop of `mainImpl` keeps going: after `n` successful
ticks it is still running and has called `Draw` `n` times. -/
theorem mainImpl_running (p : Platform) (env : Env) (inet : String) (n : Nat) :
    ∀ s : State, (∀ i, i < n → env.drawResult (s.drawn.length + i) = none) →
      ∃ s', mainImpl p env inet n s = Run.running s' ∧
        s'.drawn.length = s.drawn.length + n := by
  induction n with
  | zero => intro s _; exact ⟨s, rfl, rfl⟩
  | succ k ih =>
    intro s hs
    obtain ⟨img, hl, -⟩ := loop_spec p env inet s
    have h0 := hs 0 (Nat.succ_pos k)
    rw [Nat.add_zero] at h0
    rw [h0] at hl
    obtain ⟨s', hrun, hlen⟩ := ih
      { s with info := ⟨env.getHostname s.ticks, env.GetInternalIP s.ticks inet⟩,
               ticks := s.ticks + 1, drawn := s.drawn ++ [img] }
      (by
        intro i hi
        show env.drawResult ((s.drawn ++ [img]).length + i) = none
        rw [length_drawn_succ]
        exact hs (i + 1) (Nat.succ_lt_succ hi))
    refine ⟨s', ?_, ?_⟩
    · rw [mainImpl_succ, hl]
      exact hrun
    · rw [hlen]
      show (s.drawn ++ [img]).length + k = s.drawn.length + (k + 1)
      exact length_drawn_succ _ _ _

/-- The `for` loop of `mainImpl` returns the error of the first failing `Draw`, at that
tick, having called `Draw` once per tick up to and including it. -/
theorem mainImpl_returned (p : Platform) (env : Env) (inet : String) (k : Nat) :
    ∀ (s : State) (e : Error),
      (∀ i, i < k → env.drawResult (s.drawn.length + i) = none) →
      env.drawResult (s.drawn.length + k) = some e →
      ∀ n, k < n → ∃ s', mainImpl p env inet n s = Run.returned s' e ∧
        s'.drawn.length = s.drawn.length + k + 1 := by
  induction k with
  | zero =>
    intro s e _ he n hn
    obtain ⟨img, hl, -⟩ := loop_spec p env inet s
    rw [Nat.add_zero] at he
    rw [he] at hl
    obtain ⟨m, rfl⟩ : ∃ m, n = m + 1 := ⟨n - 1, by omega⟩
    refine ⟨{ s with info := ⟨env.getHostname s.ticks, env.GetInternalIP s.ticks inet⟩,
                     ticks := s.ticks + 1, drawn := s.drawn ++ [img] }, ?_, ?_⟩
    · rw [mainImpl_succ, hl]
    · show (s.drawn ++ [img]).length = s.drawn.length + 0 + 1
      simp only [List.length_append, List.length_singleton]
  | succ j ih =>
    intro s e hs he n hn
    obtain ⟨img, hl, -⟩ := loop_spec p env inet s
    have h0 := hs 0 (Nat.succ_pos j)
    rw [Nat.add_zero] at h0
    rw [h0] at hl
    obtain ⟨m, rfl⟩ : ∃ m, n = m + 1 := ⟨n - 1, by omega⟩
    obtain ⟨s', hrun, hlen⟩ := ih
      { s with info := ⟨env.getHostname s.ticks, env.GetInternalIP s.ticks inet⟩,
               ticks := s.ticks + 1, drawn := s.drawn ++ [img] } e
      (by
        intro i hi
        show env.drawResult ((s.drawn ++ [img]).length + i) = none
        rw [length_drawn_succ]
        exact hs (i + 1) (Nat.succ_lt_succ hi))
      (by
        show env.drawResult ((s.drawn ++ [img]).length + j) = some e
        rw [length_drawn_succ]
        exact he)
      m (by omega)
    refine ⟨s', ?_, ?_⟩
    · rw [mainImpl_succ, hl]
      exact hrun
    · rw [hlen]
      show (s.drawn ++ [img]).length + j + 1 = s.drawn.length + (j + 1) + 1
      rw [length_drawn_succ]

/-! ## The claims -/

/-- C1, as amended: for every source image whose bounds start at (0,0) with width `srcW`
and height `srcH`, and every target size `(W,H)` with `W > 0` and `H > 0` whose byte
length `4*W*H` can be allocated and for which the sampling arithmetic does not overflow
(`(W-1)*srcW + W/2` and `(H-1)*srcH + H/2` fit `int`), `resize` returns the image with
bounds exactly `(0,0)-(W,H)` whose pixel at each `(x,y)` inside, when the coordinate
`((x*srcW + W/2)/W, (y*srcH + H/2)/H)` (truncating division) lies inside the source, is
the NRGBA conversion (what `Set` stores) of the source pixel at that coordinate; it is
that pixel itself when that pixel is an NRGBA colour. -/
theorem resize_nearest_formula (p : Platform) (src : Image) (srcW srcH W H : Int)
    (hsrc : src.Bounds = ⟨⟨0, 0⟩, ⟨srcW, srcH⟩⟩) (hsW : 0 ≤ srcW) (hsH : 0 ≤ srcH)
    (hW : 0 < W) (hH : 0 < H) (hfit : 4 * W * H ≤ p.maxAlloc)
    (hoX : (W - 1) * srcW + W / 2 ≤ maxInt p.intSize)
    (hoY : (H - 1) * srcH + H / 2 ≤ maxInt p.intSize) :
    ∃ dst, resize p src ⟨W, H⟩ = some dst ∧ dst.Rect = ⟨⟨0, 0⟩, ⟨W, H⟩⟩ ∧
      ∀ x y, 0 ≤ x → x < W → 0 ≤ y → y < H →
        (Point.mk ((x * srcW + W.tdiv 2).tdiv W) ((y * srcH + H.tdiv 2).tdiv H)).In
          src.Bounds = true →
        dst.At x y = Color.NRGBA (NRGBAModel (src.At
          ((x * srcW + W.tdiv 2).tdiv W) ((y * srcH + H.tdiv 2).tdiv H))) ∧
        (∀ c, src.At ((x * srcW + W.tdiv 2).tdiv W) ((y * srcH + H.tdiv 2).tdiv H) =
            Color.NRGBA c →
          dst.At x y = src.At ((x * srcW + W.tdiv 2).tdiv W)
            ((y * srcH + H.tdiv 2).tdiv H)) := by
  obtain ⟨dst, hres, hrect, hpix⟩ :=
    resize_spec_in_range p src srcW srcH W H hsrc hsW hsH hW hH hfit hoX hoY
  refine ⟨dst, hres, hrect, ?_⟩
  intro x y hx0 hx1 hy0 hy1 _
  have h := hpix x y hx0 hx1 hy0 hy1
  refine ⟨h, ?_⟩
  intro c hc
  rw [h, hc]
  rfl

set_option maxRecDepth 100000 in
/-- C1, as amended, at the 2x2 checkerboard resized to 3x3 with a 32-bit `int`; every
sampled coordinate lies inside the source. -/
theorem resize_nearest_formula_witness :
    (∀ x y : Int, 0 ≤ x → x < 3 → 0 ≤ y → y < 3 →
      (Point.mk ((x * 2 + (3 : Int).tdiv 2).tdiv 3) ((y * 2 + (3 : Int).tdiv 2).tdiv 3)).In
        checker.Bounds = true) ∧
    ∃ dst, resize linuxArm checker ⟨3, 3⟩ = some dst ∧
      dst.Rect = ⟨⟨0, 0⟩, ⟨3, 3⟩⟩ ∧
      ∀ x y, 0 ≤ x → x < 3 → 0 ≤ y → y < 3 →
        (Point.mk ((x * 2 + (3 : Int).tdiv 2).tdiv 3) ((y * 2 + (3 : Int).tdiv 2).tdiv 3)).In
          checker.Bounds = true →
        dst.At x y = Color.NRGBA (NRGBAModel (checker.At
          ((x * 2 + (3 : Int).tdiv 2).tdiv 3) ((y * 2 + (3 : Int).tdiv 2).tdiv 3))) ∧
        (∀ c, checker.At ((x * 2 + (3 : Int).tdiv 2).tdiv 3)
            ((y * 2 + (3 : Int).tdiv 2).tdiv 3) = Color.NRGBA c →
          dst.At x y = checker.At ((x * 2 + (3 : Int).tdiv 2).tdiv 3)
            ((y * 2 + (3 : Int).tdiv 2).tdiv 3)) :=
  ⟨by
      intro x y hx0 hx1 hy0 hy1
      interval_cases x <;> interval_cases y <;> decide,
   resize_nearest_formula linuxArm checker 2 2 3 3 rfl (by decide) (by decide)
    (by decide) (by decide) (by decide) (by decide) (by decide)⟩

set_option maxRecDepth 100000 in
/-- C1, as stated, fails. With a 64-bit `int`, a source of bounds `(0,0)-(2^62,1)` and the
target `(4,1)`, the product `2 * 2^62` wraps: the pixel `(2,0)` is read at
`-2305843009213693951`, outside the source, not at `(2*2^62 + 2)/4 = 2^61`, so the result
is not made of the source pixels at the stated coordinates. And a source pixel is stored
in the NRGBA model, which changes it: the half-transparent pixel `(0x7fff, 0, 0, 0x8000)`
becomes the NRGBA colour `(255, 0, 0, 128)`, whose `RGBA()` value differs. -/
theorem resize_nearest_formula_fails :
    (¬ ∃ dst, resize linuxArm64 wideWhite ⟨4, 1⟩ = some dst ∧
      ∀ x y, 0 ≤ x → x < 4 → 0 ≤ y → y < 1 →
        dst.At x y = wideWhite.At ((x * 2 ^ 62 + (4 : Int).tdiv 2).tdiv 4)
          ((y * 1 + (1 : Int).tdiv 2).tdiv 1)) ∧
    sample IntSize.bits64 2 (2 ^ 62) 4 = some (-2305843009213693951) ∧
    (∃ dst, resize linuxArm64 translucent ⟨1, 1⟩ = some dst ∧
      dst.At 0 0 = Color.NRGBA ⟨255, 0, 0, 128⟩ ∧
      (dst.At 0 0).RGBA ≠ (translucent.At 0 0).RGBA) := by
  refine ⟨?_, by decide, ?_⟩
  · rintro ⟨dst, hres, hall⟩
    obtain ⟨dst', hres', -, hpix⟩ := resize_spec linuxArm64 wideWhite 4 1
      (by decide) (by decide) (by decide) (by decide)
    rw [hres] at hres'
    have hd : dst = dst' := Option.some.inj hres'
    subst hd
    have h1 := hall 2 0 (by decide) (by decide) (by decide) (by decide)
    have h2 := hpix 2 0 (by decide) (by decide) (by decide) (by decide)
    rw [h1] at h2
    revert h2
    decide
  · obtain ⟨dst, hres, -, hpix⟩ := resize_spec linuxArm64 translucent 1 1
      (by decide) (by decide) (by decide) (by decide)
    have h := hpix 0 0 (by decide) (by decide) (by decide) (by decide)
    have e : Color.NRGBA (NRGBAModel (translucent.At
        (sampled linuxArm64.intSize 0 translucent.Bounds.Max.X 1)
        (sampled linuxArm64.intSize 0 translucent.Bounds.Max.Y 1))) =
        Color.NRGBA ⟨255, 0, 0, 128⟩ := by decide
    rw [e] at h
    refine ⟨dst, hres, h, ?_⟩
    rw [h]
    decide

set_option maxRecDepth 100000 in
/-- C2: `resize` at the 2x2 checkerboard `(0,0)=on, (1,0)=off, (0,1)=off, (1,1)=on` and
the target 4x4, on a 32-bit and on a 64-bit platform. The destination columns 0,1,2,3 read
the source columns 0,1,1,2 (and likewise for rows), the last one outside the source: the
rows of the result are `on,off,off,off`, `off,on,on,off`, `off,on,on,off` and
`off,off,off,off`, where duplicating each source pixel into a 2x2 block gives
`on,on,off,off` twice and `off,off,on,on` twice. -/
theorem resize_checkerboard_rows :
    (resize linuxArm checker ⟨4, 4⟩).map
        (fun d => [row4 d 0, row4 d 1, row4 d 2, row4 d 3]) =
      some [[true, false, false, false], [false, true, true, false],
            [false, true, true, false], [false, false, false, false]] ∧
    (resize linuxArm64 checker ⟨4, 4⟩).map
        (fun d => [row4 d 0, row4 d 1, row4 d 2, row4 d 3]) =
      some [[true, false, false, false], [false, true, true, false],
            [false, true, true, false], [false, false, false, false]] ∧
    (∀ sz : IntSize, [sample sz 0 2 4, sample sz 1 2 4, sample sz 2 2 4, sample sz 3 2 4] =
      [some 0, some 1, some 1, some 2]) := by
  refine ⟨by decide, by decide, ?_⟩
  intro sz
  cases sz <;> decide

/-- C3, as amended: identity. For every source image with bounds `(0,0)-(W,H)`, `W > 0`
and `H > 0`, whose byte length `4*W*H` can be allocated and for which the sampling arithmetic
does not overflow (`(W-1)*W + W/2` and `(H-1)*H + H/2` fit `int`), `resize` to `(W,H)`
returns an image with the same bounds in which the coordinate sampled for `(x,y)` is
`(x,y)` itself, and each pixel is the NRGBA conversion (what `Set` stores) of the source
pixel at the same coordinate: equal to it when the source pixel is an NRGBA colour. -/
theorem resize_identity (p : Platform) (src : Image) (W H : Int)
    (hsrc : src.Bounds = ⟨⟨0, 0⟩, ⟨W, H⟩⟩) (hW : 0 < W) (hH : 0 < H)
    (hfit : 4 * W * H ≤ p.maxAlloc)
    (hoX : (W - 1) * W + W / 2 ≤ maxInt p.intSize)
    (hoY : (H - 1) * H + H / 2 ≤ maxInt p.intSize) :
    ∃ dst, resize p src ⟨W, H⟩ = some dst ∧ dst.Rect = src.Bounds ∧
      ∀ x y, 0 ≤ x → x < W → 0 ≤ y → y < H →
        sample p.intSize x W W = some x ∧ sample p.intSize y H H = some y ∧
        dst.At x y = Color.NRGBA (NRGBAModel (src.At x y)) ∧
        (∀ c, src.At x y = Color.NRGBA c → dst.At x y = src.At x y) := by
  obtain ⟨dst, hres, hrect, hpix⟩ := resize_spec p src W H (le_of_lt hW) (le_of_lt hH)
    (four_mul_lt p W H (le_of_lt hW) hH hfit) hfit
  refine ⟨dst, hres, by rw [hrect, hsrc], ?_⟩
  intro x y hx0 hx1 hy0 hy1
  have hx := sample_expr_le x W W (le_of_lt hW) hx1
  have hy := sample_expr_le y H H (le_of_lt hH) hy1
  have ex : sampled p.intSize x W W = x := by
    rw [(sampled_eq p.intSize x W W hx0 (le_of_lt hW) hW (by omega)).1, ediv_sample_self x W hx0 hx1]
  have ey : sampled p.intSize y H H = y := by
    rw [(sampled_eq p.intSize y H H hy0 (le_of_lt hH) hH (by omega)).1, ediv_sample_self y H hy0 hy1]
  have h := hpix x y hx0 hx1 hy0 hy1
  rw [hsrc] at h
  simp only [ex, ey] at h
  refine ⟨?_, ?_, h, ?_⟩
  · rw [sample_of_ne p.intSize x W W (by omega), ex]
  · rw [sample_of_ne p.intSize y H H (by omega), ey]
  · intro c hc
    rw [h, hc]
    rfl

set_option maxRecDepth 100000 in
/-- C3, as amended, at the 2x2 checkerboard resized to 2x2 with a 32-bit `int`. -/
theorem resize_identity_witness :
    ∃ dst, resize linuxArm checker ⟨2, 2⟩ = some dst ∧ dst.Rect = checker.Bounds ∧
      ∀ x y, 0 ≤ x → x < 2 → 0 ≤ y → y < 2 →
        sample linuxArm.intSize x 2 2 = some x ∧ sample linuxArm.intSize y 2 2 = some y ∧
        dst.At x y = Color.NRGBA (NRGBAModel (checker.At x y)) ∧
        (∀ c, checker.At x y = Color.NRGBA c → dst.At x y = checker.At x y) :=
  resize_identity linuxArm checker 2 2 rfl (by decide) (by decide) (by decide)
    (by decide) (by decide)

set_option maxRecDepth 100000 in
/-- C3, as stated, fails. The 1x1 source whose pixel is the half-transparent colour
`(0x7fff, 0, 0, 0x8000)`, resized to 1x1, gives a pixel that is not the source pixel: it is
the NRGBA colour `(255, 0, 0, 128)`, which reads on where the source pixel reads off. And
with a 32-bit `int` and `W = 46342` the product `46341 * 46342` wraps, so the coordinate
sampled for `x = 46341` is `-46338`, not `46341`. -/
theorem resize_identity_fails :
    (∃ dst, resize linuxArm64 translucent ⟨1, 1⟩ = some dst ∧
      dst.Rect = translucent.Bounds ∧ dst.At 0 0 ≠ translucent.At 0 0 ∧
      convertBit (translucent.At 0 0) = false ∧ convertBit (dst.At 0 0) = true) ∧
    sample IntSize.bits32 46341 46342 46342 = some (-46338) := by
  refine ⟨?_, by decide⟩
  obtain ⟨dst, hres, hrect, hpix⟩ := resize_spec linuxArm64 translucent 1 1
    (by decide) (by decide) (by decide) (by decide)
  have h := hpix 0 0 (by decide) (by decide) (by decide) (by decide)
  have e : Color.NRGBA (NRGBAModel (translucent.At
      (sampled linuxArm64.intSize 0 translucent.Bounds.Max.X 1)
      (sampled linuxArm64.intSize 0 translucent.Bounds.Max.Y 1))) =
      Color.NRGBA ⟨255, 0, 0, 128⟩ := by decide
  rw [e] at h
  refine ⟨dst, hres, hrect, ?_, by decide, ?_⟩
  · rw [h]
    decide
  · rw [h]
    decide

/-- C7, as amended: for every source image and every target size `(W,H)` with `W >= 0`,
`H >= 0`, `W = 0` or `H = 0`, and `4*W < 2^64` (a size `image.NewNRGBA` accepts), `resize`
returns (so no division by zero was evaluated, which would have been a panic), makes no
`Set` call, and the image returned is empty: no point lies in its bounds. -/
theorem resize_zero_size (p : Platform) (src : Image) (W H : Int) (hW : 0 ≤ W)
    (hH : 0 ≤ H) (hz : W = 0 ∨ H = 0) (h4 : 4 * W < 2 ^ 64) :
    ∃ dst, resizeTraced p src ⟨W, H⟩ = some (dst, 0) ∧ resize p src ⟨W, H⟩ = some dst ∧
      dst.Rect = ⟨⟨0, 0⟩, ⟨W, H⟩⟩ ∧ dst.Rect.Empty = true ∧
      ∀ x y, (Point.mk x y).In dst.Rect = false := by
  have hfit : 4 * W * H ≤ p.maxAlloc := by
    have h0 : 4 * W * H = 0 := by rcases hz with h | h <;> simp [h]
    have hf := p.frame_le
    rw [h0]
    omega
  obtain ⟨dst, hres, hrect, -⟩ := resizeTraced_spec p src W H hW hH h4 hfit
  have hcnt : H.toNat * W.toNat = 0 := by
    rcases hz with h | h <;> simp [h]
  rw [hcnt] at hres
  refine ⟨dst, hres, by simp [resize, hres], hrect, ?_, ?_⟩
  · rw [hrect]
    simp only [Rectangle.Empty, Bool.or_eq_true, decide_eq_true_eq]
    omega
  · intro x y
    rw [hrect, ← Bool.not_eq_true, In_iff]
    simp only
    omega

/-- C7, as amended, at the targets 0x5 and 5x0. -/
theorem resize_zero_size_witness :
    (∃ dst, resizeTraced linuxArm64 checker ⟨0, 5⟩ = some (dst, 0) ∧
      resize linuxArm64 checker ⟨0, 5⟩ = some dst ∧
      dst.Rect = ⟨⟨0, 0⟩, ⟨0, 5⟩⟩ ∧ dst.Rect.Empty = true ∧
      ∀ x y, (Point.mk x y).In dst.Rect = false) ∧
    (∃ dst, resizeTraced linuxArm64 checker ⟨5, 0⟩ = some (dst, 0) ∧
      resize linuxArm64 checker ⟨5, 0⟩ = some dst ∧
      dst.Rect = ⟨⟨0, 0⟩, ⟨5, 0⟩⟩ ∧ dst.Rect.Empty = true ∧
      ∀ x y, (Point.mk x y).In dst.Rect = false) :=
  ⟨resize_zero_size linuxArm64 checker 0 5 (by decide) (by decide) (Or.inl rfl)
      (by decide),
   resize_zero_size linuxArm64 checker 5 0 (by decide) (by decide) (Or.inr rfl)
      (by decide)⟩

/-- C7, as stated, fails. With a 64-bit `int` and the target `(2^62, 0)`, of height 0,
`image.NewNRGBA` panics ("huge or negative dimensions": `4 * 2^62` overflows), so `resize`
does not return an empty image. -/
theorem resize_zero_size_fails :
    (0 : Int) ≤ 2 ^ 62 ∧ resize linuxArm64 checker ⟨2 ^ 62, 0⟩ = none ∧
    resizeTraced linuxArm64 checker ⟨2 ^ 62, 0⟩ = none := by
  have h : NewNRGBA linuxArm64 ⟨⟨0, 0⟩, ⟨2 ^ 62, 0⟩⟩ = none := by
    have hm : mul3NonNeg linuxArm64.intSize 4 (2 ^ 62) 0 = -1 := by decide
    simp only [NewNRGBA, Rectangle.Dx, Rectangle.Dy, sub_zero, hm]
    rfl
  have ht : resizeTraced linuxArm64 checker ⟨2 ^ 62, 0⟩ = none := by
    simp only [resizeTraced, h, Option.bind_eq_bind, Option.none_bind]
  exact ⟨by decide, by simp only [resize, ht, Option.map_none'], ht⟩

/-- C4: for every frame of width `W >= 0` and height `H` and every text of `n` code
points, `drawInfo` hands the text to `drawText` at `x = max(0, W - 7*n)` and
`y = H - 1 - 13`: `x = W - 7*n` when `7*n <= W`, and `x = 0` when `7*n > W`. -/
theorem drawInfo_anchor {I : Type} (Bounds : I → Rectangle)
    (drawText : I → Point → String → I) (img : I) (text : String) :
    drawInfo Bounds drawText img text =
      drawText img ⟨max 0 ((Bounds img).Dx - 7 * (text.length : Int)),
        (Bounds img).Dy - 1 - 13⟩ text ∧
    (7 * (text.length : Int) ≤ (Bounds img).Dx →
      max 0 ((Bounds img).Dx - 7 * (text.length : Int)) =
        (Bounds img).Dx - 7 * (text.length : Int)) ∧
    ((Bounds img).Dx < 7 * (text.length : Int) →
      max 0 ((Bounds img).Dx - 7 * (text.length : Int)) = 0) := by
  refine ⟨?_, ?_, ?_⟩
  · simp only [drawInfo, RuneCountInString]
    congr 2
    split_ifs with h
    · rw [max_eq_left (by omega)]
    · rw [max_eq_right (by omega)]
      ring
  · intro h
    exact max_eq_right (by omega)
  · intro h
    exact max_eq_left (by omega)

/-- C4 on a 128x32 frame, the frame type being a recorder of the point `drawText`
receives: the text "abc" is placed at x = 107 and y = 18, and so is a text of three
code points that takes five bytes in UTF-8; every text of 20 or more code points is
placed at x = 0. -/
theorem drawInfo_anchor_witness :
    drawInfo (fun _ => Rectangle.mk ⟨0, 0⟩ ⟨128, 32⟩) (fun _ p _ => p) ⟨0, 0⟩ "abc" =
      ⟨107, 18⟩ ∧
    drawInfo (fun _ => Rectangle.mk ⟨0, 0⟩ ⟨128, 32⟩) (fun _ p _ => p) ⟨0, 0⟩ "héé" =
      ⟨107, 18⟩ ∧
    "héé".utf8ByteSize = 5 ∧
    ∀ text : String, 20 ≤ text.length →
      drawInfo (fun _ => Rectangle.mk ⟨0, 0⟩ ⟨128, 32⟩) (fun _ p _ => p) ⟨0, 0⟩ text =
        ⟨0, 18⟩ :=
  ⟨(drawInfo_anchor (fun _ => Rectangle.mk ⟨0, 0⟩ ⟨128, 32⟩) (fun _ p _ => p) ⟨0, 0⟩
      "abc").1.trans (by decide),
   (drawInfo_anchor (fun _ => Rectangle.mk ⟨0, 0⟩ ⟨128, 32⟩) (fun _ p _ => p) ⟨0, 0⟩
      "héé").1.trans (by decide),
   by decide,
   fun text h => by
     obtain ⟨h1, -, h3⟩ := drawInfo_anchor (fun _ => Rectangle.mk ⟨0, 0⟩ ⟨128, 32⟩)
       (fun _ p _ => p) ⟨0, 0⟩ text
     rw [h1, h3 (by simp only [Rectangle.Dx]; omega)]
     rfl⟩

/-- C5: the packing step of `convert`. For every display bounds `(0,0)-(W,H)` and every
source with bounds `(0,0)-(w,h)`, `0 < w <= W` and `0 < h <= H`, all of whose pixels are
on, the frame has the bounds of the display, and its pixel at `(x,y)` is on exactly when
`(W-w)/2 <= x < (W-w)/2 + w` and `(H-h)/2 <= y < (H-h)/2 + h`; every other pixel is
off. -/
theorem packStep_centres (W H w h : Int) (src : Image)
    (hb : src.Bounds = ⟨⟨0, 0⟩, ⟨w, h⟩⟩)
    (hw : 0 < w) (hwW : w ≤ W) (hh : 0 < h) (hhH : h ≤ H)
    (hon : ∀ x y, 0 ≤ x → x < w → 0 ≤ y → y < h → convertBit (src.At x y) = true) :
    ∃ img, packStep ⟨⟨0, 0⟩, ⟨W, H⟩⟩ ⟨W, H⟩ src = some img ∧
      img.Rect = ⟨⟨0, 0⟩, ⟨W, H⟩⟩ ∧
      ∀ x y, img.BitAt x y = true ↔
        ((W - w).tdiv 2 ≤ x ∧ x < (W - w).tdiv 2 + w ∧
          (H - h).tdiv 2 ≤ y ∧ y < (H - h).tdiv 2 + h) := by
  obtain ⟨img, hpack, hR, hP⟩ := packStep_spec ⟨⟨0, 0⟩, ⟨W, H⟩⟩ ⟨W, H⟩ src
    (by simp only [Rectangle.Dx]; omega) (by simp only [Rectangle.Dy]; omega)
    (by rw [hb])
  refine ⟨img, hpack, hR, ?_⟩
  intro x y
  have hox : (W - w).tdiv 2 = (W - w) / 2 := Int.tdiv_eq_ediv (by omega) (by decide)
  have hoy : (H - h).tdiv 2 = (H - h) / 2 := Int.tdiv_eq_ediv (by omega) (by decide)
  have hpx := hP x y
  rw [hb] at hpx
  simp only [hox, hoy, Rectangle.Add, In_iff, zero_add] at hpx
  rw [hox, hoy]
  simp only [VerticalLSB.BitAt, hR]
  by_cases hI : (Point.mk x y).In ⟨⟨0, 0⟩, ⟨W, H⟩⟩ = true
  · have hI' := (In_iff x y _).1 hI
    simp only at hI'
    rw [if_pos hI, hpx]
    by_cases hc : ((W - w) / 2 ≤ x ∧ x < w + (W - w) / 2 ∧
        (H - h) / 2 ≤ y ∧ y < h + (H - h) / 2)
    · rw [if_pos ⟨hc, hI'⟩]
      constructor
      · intro _
        omega
      · intro _
        exact hon _ _ (by omega) (by omega) (by omega) (by omega)
    · rw [if_neg (fun q => hc q.1)]
      constructor
      · intro q
        exact absurd q Bool.false_ne_true
      · intro q
        exact absurd (by omega) hc
  · rw [if_neg hI]
    constructor
    · intro q
      exact absurd q Bool.false_ne_true
    · intro q
      exfalso
      apply hI
      rw [In_iff]
      simp only
      omega

/-- C5 for a 2x2 all-on source in an 8x8 frame: exactly the four pixels of rows 3-4 and
columns 3-4 are on. -/
theorem packStep_centres_witness :
    ∃ img, packStep ⟨⟨0, 0⟩, ⟨8, 8⟩⟩ ⟨8, 8⟩ allOn2 = some img ∧
      img.Rect = ⟨⟨0, 0⟩, ⟨8, 8⟩⟩ ∧
      ∀ x y, img.BitAt x y = true ↔ (3 ≤ x ∧ x < 5 ∧ 3 ≤ y ∧ y < 5) := by
  obtain ⟨img, h1, h2, h3⟩ := packStep_centres 8 8 2 2 allOn2 rfl (by decide) (by decide)
    (by decide) (by decide)
    (by
      intro x y hx0 hx1 hy0 hy1
      have hI : (Point.mk x y).In ⟨⟨0, 0⟩, ⟨2, 2⟩⟩ = true :=
        (In_iff x y _).2 ⟨hx0, hx1, hy0, hy1⟩
      simp only [allOn2, hI, if_true]
      rfl)
  refine ⟨img, h1, h2, ?_⟩
  intro x y
  rw [h3]
  have e : ((8 : Int) - 2).tdiv 2 = 3 := by decide
  rw [e]
  constructor <;> rintro ⟨a, b, c, d⟩ <;> exact ⟨a, by omega, c, by omega⟩

/-- C6, as amended: for every display bounds of extents `W >= 0` and `H >= 0` and every
source image with bounds `(0,0)-(srcW,srcH)`, where `W < 2*srcW` and `H < 2*srcH` (so
that `resize` reads only inside the source), the byte length `4*W*H` can be allocated
and the sampling arithmetic does not overflow, and in which every pixel is black or transparent
(no colour channel set), `convert` returns a frame whose bounds are the bounds of the
display and in which every pixel is off. -/
theorem convert_all_off (p : Platform) (B : Rectangle) (src : Image) (srcW srcH : Int)
    (hsrc : src.Bounds = ⟨⟨0, 0⟩, ⟨srcW, srcH⟩⟩) (hx : 0 ≤ B.Dx) (hy : 0 ≤ B.Dy)
    (hinX : B.Dx < 2 * srcW) (hinY : B.Dy < 2 * srcH)
    (hfit : 4 * B.Dx * B.Dy ≤ p.maxAlloc)
    (hoX : (B.Dx - 1) * srcW + B.Dx / 2 ≤ maxInt p.intSize)
    (hoY : (B.Dy - 1) * srcH + B.Dy / 2 ≤ maxInt p.intSize)
    (hoff : ∀ x y, (Point.mk x y).In src.Bounds = true → (src.At x y).isOff = true) :
    ∃ img, convert p B src = some img ∧ img.Rect = B ∧ ∀ x y, img.BitAt x y = false := by
  have h4 : 4 * B.Dx < 2 ^ 64 := by
    by_contra hc
    have hlt := maxInt_lt p.intSize
    have h1 : (2 ^ 62 - 1) * 2 ^ 61 ≤ (B.Dx - 1) * srcW :=
      mul_le_mul (by omega) (by omega) (by decide) (by omega)
    have h2 : (2 ^ 64 : Int) ≤ (2 ^ 62 - 1) * 2 ^ 61 := by decide
    omega
  obtain ⟨img, hconv, hR, hP⟩ := convert_spec p B src hx hy h4 hfit
  refine ⟨img, hconv, hR, ?_⟩
  intro x y
  simp only [VerticalLSB.BitAt]
  split_ifs
  · rw [hP]
    split_ifs with hc
    · apply convertBit_NRGBAModel_of_isOff
      apply hoff
      rw [hsrc, In_iff]
      simp only
      have hX := sampled_in_bounds p.intSize x srcW B.Dx hc.1.1.1 hc.1.1.2 (by omega) hinX hoX
      have hY := sampled_in_bounds p.intSize y srcH B.Dy hc.1.2.1 hc.1.2.2 (by omega) hinY hoY
      exact ⟨hX.1, hX.2, hY.1, hY.2⟩
    · rfl
  · rfl

/-- C6, as amended, for a 64x64 all-off source and a 96x32 display. -/
theorem convert_all_off_witness :
    ∃ img, convert linuxArm ⟨⟨0, 0⟩, ⟨96, 32⟩⟩ blank64 = some img ∧
      img.Rect = ⟨⟨0, 0⟩, ⟨96, 32⟩⟩ ∧ ∀ x y, img.BitAt x y = false :=
  convert_all_off linuxArm ⟨⟨0, 0⟩, ⟨96, 32⟩⟩ blank64 64 64 rfl (by decide) (by decide)
    (by decide) (by decide) (by decide) (by decide) (by decide)
    (by intro x y _; simp [blank64, VerticalLSB.toImage, VerticalLSB.At, VerticalLSB.BitAt,
          Color.isOff, Color.RGBA])

set_option maxRecDepth 100000 in
/-- C6, as stated, fails. A 1x1 black `image.YCbCr` source on a 2x2 display: the pixel
`(0,0)` reads the black source pixel, the other three are read outside the source, where
the image returns the zero `YCbCr` value, which is not black, and the frame is
`off,on / on,on`. And a pixel that reads off need not be black: the half-transparent
`(0x7fff, 0, 0, 0x8000)` reads off, and the frame `convert` makes of it on a 1x1 display
has its pixel on. -/
theorem convert_all_off_fails :
    (blackYCbCr.At 0 0).isOff = true ∧ convertBit (blackYCbCr.At 0 0) = false ∧
    (convert linuxArm64 ⟨⟨0, 0⟩, ⟨2, 2⟩⟩ blackYCbCr).map bits2x2 =
      some [false, true, true, true] ∧
    convertBit (translucent.At 0 0) = false ∧
    (convert linuxArm64 ⟨⟨0, 0⟩, ⟨1, 1⟩⟩ translucent).map (fun i => i.BitAt 0 0) =
      some true := by
  decide

/-- C8: the frame `loop` gives to the `Draw` of the display. In every tick, whatever the host
name and the IPv4 address found, `loop` presents `convert` of a blank frame as it is:
`drawInfo` is not called, no text is overlaid, and every pixel of the presented frame is
off. -/
theorem loop_presents_blank_frame (p : Platform) (env : Env) (inet : String) (s : State) :
    ∃ img s', loop p env inet s = some (s', env.drawResult s.drawn.length) ∧
      s'.drawn = s.drawn ++ [img] ∧
      s'.info = ⟨env.getHostname s.ticks, env.GetInternalIP s.ticks inet⟩ ∧
      convert p s.Bounds (VerticalLSB.mk s.Bounds (fun _ _ => false)).toImage = some img ∧
      img.Rect = s.Bounds ∧ ∀ x y, img.BitAt x y = false := by
  obtain ⟨img, hl, hconv, hR, hP⟩ := loop_spec p env inet s
  exact ⟨img, _, hl, rfl, rfl, hconv, hR, hP⟩

/-- C9: fail-fast refresh loop. Whatever the lookups return, `loop` gives exactly one
frame to `Draw` and returns what that `Draw` returned (the same error, or nil); when the
first failing `Draw` is that of tick `k`, the `for` loop of `mainImpl` returns its error
at that tick, having called `Draw` exactly `k + 1` times, however long it is observed; and
as long as every `Draw` succeeds it is still running, with one `Draw` call per tick. -/
theorem refresh_fail_fast (p : Platform) (env : Env) (inet : String) (s : State) :
    (∃ img s', loop p env inet s = some (s', env.drawResult s.drawn.length) ∧
      s'.drawn = s.drawn ++ [img]) ∧
    (∀ k e, (∀ i, i < k → env.drawResult (s.drawn.length + i) = none) →
      env.drawResult (s.drawn.length + k) = some e →
      ∀ n, k < n → ∃ s', mainImpl p env inet n s = Run.returned s' e ∧
        s'.drawn.length = s.drawn.length + k + 1) ∧
    (∀ n, (∀ i, i < n → env.drawResult (s.drawn.length + i) = none) →
      ∃ s', mainImpl p env inet n s = Run.running s' ∧
        s'.drawn.length = s.drawn.length + n) := by
  refine ⟨?_, ?_, ?_⟩
  · obtain ⟨img, hl, -⟩ := loop_spec p env inet s
    exact ⟨img, _, hl, rfl⟩
  · intro k e hs he n hn
    exact mainImpl_returned p env inet k s e hs he n hn
  · intro n hs
    exact mainImpl_running p env inet n s hs

/-- C9 with empty lookups and a `Draw` that fails at the third tick: the loop returns that
error after exactly three `Draw` calls, also when observed for 10 ticks; and it is still
running after two ticks. -/
theorem refresh_fail_fast_witness :
    (∃ s', mainImpl linuxArm failingEnv "eth0" 10 panel =
        Run.returned s' "i/o error" ∧ s'.drawn.length = 3) ∧
    (∃ s', mainImpl linuxArm failingEnv "eth0" 2 panel = Run.running s' ∧
      s'.drawn.length = 2) :=
  ⟨(refresh_fail_fast linuxArm failingEnv "eth0" panel).2.1 2 "i/o error"
      (by intro i hi; have : i ≠ 2 := by omega
          simp [failingEnv, panel, this])
      (by simp [failingEnv, panel]) 10 (by decide),
   (refresh_fail_fast linuxArm failingEnv "eth0" panel).2.2 2
      (by intro i hi; have : i ≠ 2 := by omega
          simp [failingEnv, panel, this])⟩

/-- C10, as amended: for every source extent `s > 0` and target extent `t > 0` along an
axis for which the sampling arithmetic does not overflow (`(t-1)*s + t/2` fits `int`),
the coordinates `(x*s + t/2)/t` that `resize` samples for `0 <= x < t` all lie in `[0, s)`
if and only if `t < 2*s`; in particular they do for every downscale and same-size resize
(`t <= s`), and for every upscale with `t >= 2*s` some sampled coordinate equals `s`. -/
theorem sample_in_bounds_iff (sz : IntSize) (s t : Int) (hs : 0 < s) (ht : 0 < t)
    (ho : (t - 1) * s + t / 2 ≤ maxInt sz) :
    ((∀ x, 0 ≤ x → x < t → ∃ c, sample sz x s t = some c ∧ 0 ≤ c ∧ c < s) ↔ t < 2 * s) ∧
    (t ≤ s → ∀ x, 0 ≤ x → x < t → ∃ c, sample sz x s t = some c ∧ 0 ≤ c ∧ c < s) ∧
    (2 * s ≤ t → ∃ x, 0 ≤ x ∧ x < t ∧ sample sz x s t = some s) := by
  have hin : t < 2 * s → ∀ x, 0 ≤ x → x < t →
      ∃ c, sample sz x s t = some c ∧ 0 ≤ c ∧ c < s := by
    intro hlt x hx0 hx1
    have hb := sampled_in_bounds sz x s t hx0 hx1 (le_of_lt hs) hlt ho
    exact ⟨_, sample_of_ne sz x s t (by omega), hb.1, hb.2⟩
  have hlast : sample sz (t - 1) s t = some (((t - 1) * s + t / 2) / t) :=
    sample_nonneg_eq sz (t - 1) s t (by omega) (le_of_lt hs) ht ho
  have h2 : (t - 1) * s = s * t - s := by ring
  refine ⟨⟨?_, hin⟩, ?_, ?_⟩
  · intro hall
    obtain ⟨c, hc, -, hcs⟩ := hall (t - 1) (by omega) (by omega)
    rw [hlast] at hc
    have hc' := Option.some.inj hc
    rw [← hc'] at hcs
    have := Int.lt_mul_of_ediv_lt ht hcs
    omega
  · intro hle
    exact hin (by omega)
  · intro hge
    refine ⟨t - 1, by omega, by omega, ?_⟩
    rw [hlast]
    congr 1
    apply le_antisymm
    · apply Int.le_of_lt_add_one
      apply Int.ediv_lt_of_lt_mul ht
      have h3 : (s + 1) * t = s * t + t := by ring
      omega
    · apply Int.le_ediv_of_mul_le ht
      omega

/-- C10, as amended, for a source extent 2 and a 32-bit `int`: the target 3 stays inside
the source, and the target 4 reads the coordinate 2, outside it. -/
theorem sample_in_bounds_iff_witness :
    (∀ x, 0 ≤ x → x < 3 → ∃ c, sample IntSize.bits32 x 2 3 = some c ∧ 0 ≤ c ∧ c < 2) ∧
    (∃ x, 0 ≤ x ∧ x < 4 ∧ sample IntSize.bits32 x 2 4 = some 2) :=
  ⟨((sample_in_bounds_iff IntSize.bits32 2 3 (by decide) (by decide) (by decide)).1).2
      (by decide),
   (sample_in_bounds_iff IntSize.bits32 2 4 (by decide) (by decide) (by decide)).2.2
      (by decide)⟩

/-- C10, as stated, fails. With a 64-bit `int`, the source extent `2^62` and the target
extent 4, which is less than twice the source extent, the product `2 * 2^62` wraps and
the coordinate sampled for `x = 2` is `-2305843009213693951`, not in `[0, 2^62)`. -/
theorem sample_in_bounds_iff_fails :
    (4 : Int) < 2 * 2 ^ 62 ∧
    sample IntSize.bits64 2 (2 ^ 62) 4 = some (-2305843009213693951) ∧
    ¬ (∀ x, 0 ≤ x → x < 4 →
        ∃ c, sample IntSize.bits64 x (2 ^ 62) 4 = some c ∧ 0 ≤ c ∧ c < 2 ^ 62) := by
  refine ⟨by decide, by decide, ?_⟩
  intro hall
  obtain ⟨c, hc, hc0, -⟩ := hall 2 (by decide) (by decide)
  have e : sample IntSize.bits64 2 (2 ^ 62) 4 = some (-2305843009213693951) := by decide
  rw [e] at hc
  have := Option.some.inj hc
  omega

end Monitor
